import Mathlib

/-!
Verification development for the gosieve RFC 5228 scanner and tree builder
(`src/rfc5228/lexer.go`, `node.go`, and the draft parser in `lexer_test.go`).

The scanner is embedded as a small-step machine: each Go state function
(`lexStart`, `lexWhitespace`, ...) becomes one case of `step`, where a single
`step` performs exactly one iteration of the corresponding Go loop (or the
straight-line prelude of the state).  The driving loop `lexer.nextItem` becomes
the fuelled driver `runLex`; `none` means the fuel ran out, which on the Go
side corresponds to the scan not having returned yet.  Fuel is needed because
the Go scanner does not always terminate (see the bracket-comment theorems).

Modelling notes, faithful to the Go source:
* the input is a list of characters and positions count code points (the Go
  code counts bytes; on ASCII input, which all concrete inputs here are, the
  two coincide);
* `unicode.IsLetter` / `unicode.IsDigit` are modelled by `Char.isAlpha` /
  `Char.isDigit`; every character the claims exercise is ASCII, where the
  predicates agree;
* the `atEOF` field is declared in the Go struct and read by `backup`, but no
  statement of the program ever assigns it, so it stays `false` forever; the
  embedding reproduces this by never setting it;
* string values (`item.val`, error texts) are `List Char`, written via
  `String.data` of a literal.
-/

/-- `itemType` from lexer.go: the kind of a lexed item. -/
inductive itemType where
  | itemError
  | itemEOF
  | itemComment
  | itemIdentifier
  | itemEnd
  | itemString
  | itemNumeric
  | itemStringListOpen
  | itemStringListClose
  | itemTestListOpen
  | itemTestListClose
  | itemBlockOpen
  | itemBlockClose
deriving DecidableEq, Repr

/-- `item` from lexer.go: a token (type, starting position, value). -/
structure item where
  typ : itemType
  pos : Nat
  val : List Char
deriving DecidableEq, Repr

/-- `lexer` from lexer.go.  `item` is the pending item handed back to the
parser; `width` is the width of the last rune read (1 for a rune, 0 at EOF);
`atEOF` is declared in the Go struct but never assigned anywhere. -/
structure lexer where
  input : List Char
  start : Nat
  pos : Nat
  atEOF : Bool
  width : Nat
  pending : item
deriving DecidableEq, Repr

/-- `textMarker` from lexer.go (note: the marker is `input:`, while the
dispatch in `lexStart` still tests for a first rune `'t'`). -/
def textMarker : List Char := "input:".data

namespace lexer

/-- `lex(name, input)` from lexer.go: the initial scanner state. -/
def lex (input : List Char) : lexer :=
  { input := input, start := 0, pos := 0, atEOF := false, width := 0,
    pending := ⟨.itemEOF, 0, "EOF".data⟩ }

/-- `lexer.next` from lexer.go: read one rune, or report EOF (`none`) past the
end.  At EOF the width becomes 0 and the position does not move. -/
def next (l : lexer) : lexer × Option Char :=
  match l.input[l.pos]? with
  | none => ({ l with width := 0 }, none)
  | some c => ({ l with width := 1, pos := l.pos + 1 }, some c)

/-- `lexer.backup` from lexer.go: step back one rune.  Because `atEOF` is
never set, the guard degenerates to `pos > 0` — `backup` steps back even when
the preceding `next` returned EOF and consumed nothing. -/
def backup (l : lexer) : lexer :=
  if !l.atEOF && l.pos > 0 then { l with pos := l.pos - 1 } else l

/-- `lexer.peek` from lexer.go: `next` followed by `backup`. -/
def peekc (l : lexer) : lexer × Option Char :=
  let (l1, r) := l.next
  (l1.backup, r)

/-- `lexer.ignore` from lexer.go. -/
def ignore (l : lexer) : lexer :=
  { l with start := l.pos }

/-- `lexer.acceptExact` from lexer.go. -/
def acceptExact (l : lexer) (r : Char) : lexer × Bool :=
  let (l1, c) := l.next
  if c = some r then (l1, true) else (l1.backup, false)

/-- `lexer.acceptAny` from lexer.go: accept one rune from the set. -/
def acceptAny (l : lexer) (runes : List Char) : lexer × Bool :=
  let (l1, c) := l.next
  match c with
  | some c => if runes.contains c then (l1, true) else (l1.backup, false)
  | none => (l1.backup, false)

/-- `lexer.isExactPrefix` from lexer.go: peek-only test that the input at the
current position starts with `pre`. -/
def isExactPrefixAt (l : lexer) (pre : List Char) : Bool :=
  go l.pos pre
where
  go : Nat → List Char → Bool
  | _, [] => true
  | off, p :: ps =>
    match l.input[off]? with
    | some c => c = p && go (off + 1) ps
    | none => false

/-- `next` iterated `n` times (the consuming loop of `acceptRunSequence`). -/
def nextN : Nat → lexer → lexer
  | 0, l => l
  | n + 1, l => nextN n (l.next).1

/-- `lexer.acceptRunSequence` from lexer.go: consume `pre` if it is the exact
prefix at the current position. -/
def acceptRunSeq (l : lexer) (pre : List Char) : lexer × Bool :=
  if l.isExactPrefixAt pre then (nextN pre.length l, true)
  else (l, false)

/-- `lexer.acceptRunAny` from lexer.go: consume a run of runes from the valid
set, then `backup` past the first rune that is not in the set. -/
def acceptRunAny (l : lexer) (valid : List Char) : lexer :=
  match h : l.next with
  | (l1, some c) =>
    if valid.contains c then acceptRunAny l1 valid else l1.backup
  | (l1, none) => l1.backup
termination_by l.input.length - l.pos
decreasing_by
  simp only [next] at h
  rcases hg : l.input[l.pos]? with _ | c'
  · rw [hg] at h
    simp at h
  · rw [hg] at h
    simp only [Prod.mk.injEq, Option.some.injEq] at h
    obtain ⟨h1, -⟩ := h
    obtain ⟨hlt, -⟩ := List.getElem?_eq_some.mp hg
    rw [← h1]
    show l.input.length - (l.pos + 1) < l.input.length - l.pos
    omega

/-- `lexer.thisItem` from lexer.go: the raw slice of the input between `start`
and `pos` (no escape resolution, delimiters included), advancing `start`. -/
def thisItem (l : lexer) (t : itemType) : item × lexer :=
  (⟨t, l.start, (l.input.drop l.start).take (l.pos - l.start)⟩, { l with start := l.pos })

end lexer

/-- The named scanning states of the Go scanner.  Go state functions with an
internal loop are split so that one `step` is one loop iteration; straight-line
preludes (opening quote, multi-line marker, ...) get their own state. -/
inductive LexState where
  | startS          -- one iteration of the lexStart dispatch loop
  | whitespaceS     -- one iteration of the lexWhitespace loop
  | bracketCommentS -- one iteration of the lexBracketComment loop
  | hashCommentS    -- one iteration of the lexHashComment loop
  | identifierS     -- the first-rune check of lexIdentifier
  | identLoopS      -- one iteration of the lexIdentifier loop
  | quotedStringS   -- the opening-quote check of lexQuotedString
  | quotedLoopS     -- one iteration of the lexQuotedString loop
  | multilineS      -- marker / spaces / optional-hash prelude of lexMultiline
  | multilineHashS  -- one iteration of lexMultiline's hash-comment loop
  | multilineCRLFS  -- the CRLF check and empty-body check of lexMultiline
  | multilineBodyS  -- one iteration of lexMultiline's body loop
  | stringListS     -- lexStringList
  | tagS            -- lexTag
  | numericS        -- the digit peek of lexNumeric
  | numericLoopS    -- one iteration of the lexNumeric digit loop
  | testListS       -- lexTestList
  | blockS          -- lexBlock
deriving DecidableEq, Repr

/-- Result of one scanner step: either the scan halts (a Go state function
returned `nil`, so `nextItem` returns the pending item), or control moves to
the next state. -/
inductive LexStep where
  | halt (l : lexer)
  | cont (s : LexState) (l : lexer)
deriving Repr

/-- `lexer.emit` from lexer.go: record `thisItem` as the pending item and
halt. -/
def emitStep (l : lexer) (t : itemType) : LexStep :=
  let (i, l1) := l.thisItem t
  .halt { l1 with pending := i }

/-- `lexer.errorf` from lexer.go: record an error item at position `start`,
clear the stored input, reset both positions and halt. -/
def errorfStep (l : lexer) (msg : List Char) : LexStep :=
  .halt { input := [], start := 0, pos := 0, atEOF := l.atEOF, width := l.width,
          pending := ⟨.itemError, l.start, msg⟩ }

/-- `isWhitespace` from lexer.go. -/
def isWhitespaceC (r : Char) : Bool :=
  r = ' ' || r = '\t' || r = '\r' || r = '\n' || r = '/' || r = '#'

/-- `isOctetFiltered` from lexer.go: a rune in 0x01..0xFF that is none of the
filtered runes. -/
def isOctetFiltered (r : Char) (filters : List Char) : Bool :=
  decide (1 ≤ r.toNat) && decide (r.toNat ≤ 255) && !(filters.contains r)

/-- `isAlpha` from lexer.go (`unicode.IsLetter` modelled by `Char.isAlpha`). -/
def isAlphaC (r : Char) : Bool := r = '_' || r.isAlpha

/-- `isDigit` from lexer.go. -/
def isDigitC (r : Char) : Bool := r.isDigit

/-- `isAlphaNumeric` from lexer.go. -/
def isAlphaNumericC (r : Char) : Bool := isAlphaC r || isDigitC r

open LexState in
/-- One step of the scanner: a faithful transcription of the corresponding
piece of the Go state function named in `LexState`. -/
def step : LexState → lexer → LexStep
  | startS, l =>
    let (l1, r) := l.peekc
    match r with
    | none => .halt l1
    | some c =>
      if isWhitespaceC c then .cont whitespaceS l1
      else if isAlphaC c && !(l1.isExactPrefixAt textMarker) then .cont identifierS l1
      else if c = '"' then .cont quotedStringS l1
      else if c = 't' && l1.isExactPrefixAt textMarker then .cont multilineS l1
      else if c = '[' then .cont stringListS l1
      else if c = ',' then .cont startS ((l1.next).1.ignore)
      else if c = ']' then .cont stringListS l1
      else if c = ':' then .cont tagS l1
      else if isDigitC c then .cont numericS l1
      else if c = '(' then .cont testListS l1
      else if c = ')' then .cont testListS l1
      else if c = ';' then emitStep ((l1.next).1) .itemEnd
      else if c = '{' then .cont blockS l1
      else if c = '}' then .cont blockS l1
      else errorfStep l1 "unexpected rune".data
  | whitespaceS, l =>
    let (l1, r) := l.next
    match r with
    | none => .halt l1
    | some c =>
      if c = ' ' || c = '\t' then .cont whitespaceS l1.ignore
      else if c = '\r' then
        let (l2, r2) := l1.next
        if r2 = some '\n' then .cont whitespaceS l2.ignore
        else errorfStep l2 "unexpected carriage return".data
      else if c = '\n' then errorfStep l1 "dangling line feed".data
      else if c = '#' then .cont hashCommentS l1
      else if c = '/' then
        let (l2, r2) := l1.next
        if r2 = some '*' then .cont bracketCommentS l2
        else errorfStep l2 "unexpected bracket comment".data
      else .cont startS l1.backup
  | bracketCommentS, l =>
    let (l1, r) := l.next
    match r with
    | none => .halt l1
    | some c =>
      if isOctetFiltered c ['\r', '\n', '*'] then .cont bracketCommentS l1
      else if c = '\r' then
        let (l2, r2) := l1.next
        if r2 = some '\n' then .cont bracketCommentS l2
        else errorfStep l2 "unexpected carriage return".data
      else if c = '*' then
        let (l2, r2) := l1.next
        if r2 = some '/' then emitStep l2 .itemComment
        else .cont bracketCommentS l2.backup
      else errorfStep l1 "unexpected rune".data
  | hashCommentS, l =>
    let (l1, r) := l.next
    match r with
    | none => .halt l1
    | some c =>
      if isOctetFiltered c ['\r', '\n'] then .cont hashCommentS l1
      else if c = '\r' then
        if l1.isExactPrefixAt ['\n'] then emitStep l1.backup .itemComment
        else errorfStep l1 "unexpected carriage return".data
      else errorfStep l1 "unexpected rune".data
  | identifierS, l =>
    let (l1, r) := l.next
    match r with
    | some c => if isAlphaC c then .cont identLoopS l1
                else errorfStep l1 "expected alpha rune as first character".data
    | none => errorfStep l1 "expected alpha rune as first character".data
  | identLoopS, l =>
    let (l1, r) := l.next
    match r with
    | none => .halt l1
    | some c =>
      if isAlphaNumericC c then .cont identLoopS l1
      else emitStep l1.backup .itemIdentifier
  | quotedStringS, l =>
    let (l1, ok) := l.acceptExact '"'
    if ok then .cont quotedLoopS l1
    else errorfStep l1 "quoted-string opening quote expected".data
  | quotedLoopS, l =>
    let (l1, r) := l.next
    match r with
    | none => .halt l1
    | some c =>
      if isOctetFiltered c ['\r', '\n', '"', '\\'] then .cont quotedLoopS l1
      else if c = '\\' then
        let (l2, r2) := l1.next
        if r2 = some '"' || r2 = some '\\' then .cont quotedLoopS l2
        else errorfStep l2 "quoted-other not supported".data
      else if c = '\r' then
        let (l2, ok) := l1.acceptExact '\n'
        if ok then .cont quotedLoopS l2
        else errorfStep l2 "dangling carriage return".data
      else if c = '"' then emitStep l1 .itemString
      else errorfStep l1 "unexpected character".data
  | multilineS, l =>
    let (l1, ok) := l.acceptRunSeq textMarker
    if !ok then errorfStep l1 "missing input marker".data
    else
      let l2 := l1.acceptRunAny [' ', '\t']
      let (l3, okHash) := l2.acceptExact '#'
      if okHash then .cont multilineHashS l3 else .cont multilineCRLFS l3
  | multilineHashS, l =>
    -- the Go `break` here only leaves the switch, so the loop never exits
    -- except by `return` at EOF: the default case backs up and loops again
    let (l1, r) := l.next
    match r with
    | none => .halt l1
    | some c =>
      if isOctetFiltered c ['\r', '\n'] then .cont multilineHashS l1
      else .cont multilineHashS l1.backup
  | multilineCRLFS, l =>
    let (l1, ok) := l.acceptRunSeq ['\r', '\n']
    if !ok then errorfStep l1 "CRLF expected".data
    else
      let (l2, okEnd) := l1.acceptRunSeq ['.', '\r', '\n']
      if okEnd then emitStep l2 .itemString else .cont multilineBodyS l2
  | multilineBodyS, l =>
    let (l1, r) := l.next
    match r with
    | none => .halt l1
    | some c =>
      if isOctetFiltered c ['\r', '\n'] then .cont multilineBodyS l1
      else if c = '\r' then
        let (l2, ok) := l1.acceptExact '\n'
        if !ok then errorfStep l2 "unexpected carriage return".data
        else
          let (l3, okEnd) := l2.acceptRunSeq ['.', '\r', '\n']
          if okEnd then emitStep l3 .itemString else .cont multilineBodyS l3
      else errorfStep l1 "unexpected rune".data
  | stringListS, l =>
    let (l1, r) := l.next
    if r = some '[' then emitStep l1 .itemStringListOpen
    else if r = some ']' then emitStep l1 .itemStringListClose
    else errorfStep l1 "string list open/close expected".data
  | tagS, l =>
    let (l1, ok) := l.acceptExact ':'
    if ok then .cont identifierS l1
    else errorfStep l1 "colon expected".data
  | numericS, l =>
    let (l1, r) := l.peekc
    match r with
    | some c => if isDigitC c then .cont numericLoopS l1
                else errorfStep l1 "digit expected".data
    | none => errorfStep l1 "digit expected".data
  | numericLoopS, l =>
    let (l1, r) := l.next
    match r with
    | none => .halt l1
    | some c =>
      if isDigitC c then .cont numericLoopS l1
      else emitStep ((l1.backup.acceptAny ['K', 'M', 'G']).1) .itemNumeric
  | testListS, l =>
    let (l1, r) := l.next
    if r = some '(' then emitStep l1 .itemTestListOpen
    else if r = some ')' then emitStep l1 .itemTestListClose
    else errorfStep l1 "test-list open/close expected".data
  | blockS, l =>
    let (l1, r) := l.next
    if r = some '{' then emitStep l1 .itemBlockOpen
    else if r = some '}' then emitStep l1 .itemBlockClose
    else errorfStep l1 "block open/close expected".data

/-- The driving loop of `lexer.nextItem`: run `step` until a state halts.
`none` means the fuel ran out (on the Go side: the scan has not returned after
that many state-loop iterations). -/
def runLex : Nat → LexState → lexer → Option (lexer × item)
  | 0, _, _ => none
  | n + 1, s, l =>
    match step s l with
    | .halt l1 => some (l1, l1.pending)
    | .cont s1 l1 => runLex n s1 l1

/-- `lexer.nextItem` from lexer.go, with fuel: preset the pending item to the
end-of-input item at the current position, then drive `lexStart`. -/
def nextItemF (n : Nat) (l : lexer) : Option (lexer × item) :=
  runLex n .startS { l with pending := ⟨.itemEOF, l.pos, "EOF".data⟩ }


/-!
The tree builder: the draft parser of lexer_test.go (`Parser`, `Parse`,
`parseCommand`, with `parseIf`, `parseRequire`, `parseRedirect` all returning
the error `not implemented`), over the node shapes of node.go.  A `Tree` is its
`Start` list; Go appends the (interface) node returned by `parseCommand`, which
is typed here as `Option CommandNode` because `parseCommand`'s EOF branch
returns a nil node.  Node positions are the parser's token-index cursor
(`p.Pos`) at creation time, exactly as `tree.newStop(p.Pos)` etc. record it.
-/

/-- The command nodes the draft parser can actually construct (node.go's
`StopNode`, `KeepNode`, `DiscardNode`; `if`/`require`/`redirect` handlers fail
before building a node). -/
inductive CommandNode where
  | StopNode (pos : Nat)
  | KeepNode (pos : Nat)
  | DiscardNode (pos : Nat)
deriving DecidableEq, Repr

/-- The `NodeType` discriminant of node.go (iota constants: `nodeControlStop`
is 2, `nodeKeep` is 7, `nodeDiscard` is 8). -/
def CommandNode.nodeType : CommandNode → Nat
  | .StopNode _ => 2
  | .KeepNode _ => 7
  | .DiscardNode _ => 8

/-- Numeric value of an `itemType` (the iota order of lexer.go), used by
`item.String`'s `%d`. -/
def itemType.toNat : itemType → Nat
  | .itemError => 0
  | .itemEOF => 1
  | .itemComment => 2
  | .itemIdentifier => 3
  | .itemEnd => 4
  | .itemString => 5
  | .itemNumeric => 6
  | .itemStringListOpen => 7
  | .itemStringListClose => 8
  | .itemTestListOpen => 9
  | .itemTestListClose => 10
  | .itemBlockOpen => 11
  | .itemBlockClose => 12

/-- `item.String` from lexer.go. -/
def item.goString (i : item) : List Char :=
  "type = [".data ++ (toString i.typ.toNat).data ++ "], pos = [".data ++
    (toString i.pos).data ++ "], value = [".data ++ i.val ++ "]".data

/-- `Parser.next` from lexer_test.go: at EOF a synthesized end-of-input item
and an unchanged cursor, otherwise the token under the cursor and the advanced
cursor. -/
def pnext (tokens : List item) (pos : Nat) : item × Nat :=
  match tokens[pos]? with
  | none => (⟨.itemEOF, pos, "EOF".data⟩, pos)
  | some it => (it, pos + 1)

/-- `Parser.backup` from lexer_test.go: step the cursor back one token — but
only while `!p.isAtEOF() && p.Pos > 0`, so once the cursor sits at
`len(p.tokens)` (or at 0) it is a no-op. -/
def pbackup (tokens : List item) (pos : Nat) : Nat :=
  if pos < tokens.length ∧ 0 < pos then pos - 1 else pos

/-- `Parser.peek` from lexer_test.go: `next` followed by a deferred `backup`.
Because `backup` is a no-op once the cursor has reached `len(p.tokens)`,
peeking the LAST token leaves the cursor advanced past it; only while further
tokens remain is the cursor restored. -/
def ppeek (tokens : List item) (pos : Nat) : item × Nat :=
  let (it, pos1) := pnext tokens pos
  (it, pbackup tokens pos1)

/-- `Parser.advance` from lexer_test.go: `next` with the token dropped (at
EOF `next` returns before its deferred increment, so the cursor stays). -/
def padvance (tokens : List item) (pos : Nat) : Nat :=
  (pnext tokens pos).2

/-- `Parser.accept` from lexer_test.go: advance over the next token when it
has the wanted type, otherwise `backup` — which, like in `peek`, is a no-op
when the read moved the cursor to the end of the array. -/
def paccept (tokens : List item) (pos : Nat) (t : itemType) : Bool × Nat :=
  let (it, pos1) := pnext tokens pos
  if it.typ = t then (true, pos1) else (false, pbackup tokens pos1)

/-- The shared tail of `Parser.parseCommand` for the inline-handled commands
(stop/keep/discard): expect the end-marker `;`. -/
def finishAction (tokens : List item) (pos : Nat) (node : CommandNode) :
    Except (List Char) (Option CommandNode) × Nat :=
  let (ok, pos1) := paccept tokens pos .itemEnd
  if ok then (.ok (some node), pos1) else (.error "expected end `;`".data, pos1)

/-- `Parser.parseCommand` from lexer_test.go.  `parseIf` and `parseRequire`
both read `return nil, fmt.Errorf("not implemented")`, and the `REDIRECT` case
dispatches to `parseRequire`. -/
def parseCommandF (tokens : List item) (pos : Nat) :
    Except (List Char) (Option CommandNode) × Nat :=
  let (token, pos1) := pnext tokens pos
  match token.typ with
  | .itemEOF => (.ok none, pos1)
  | .itemIdentifier =>
    if token.val = "if".data then (.error "not implemented".data, pos1)
    else if token.val = "require".data then (.error "not implemented".data, pos1)
    else if token.val = "stop".data then finishAction tokens pos1 (.StopNode pos1)
    else if token.val = "keep".data then finishAction tokens pos1 (.KeepNode pos1)
    else if token.val = "discard".data then finishAction tokens pos1 (.DiscardNode pos1)
    else if token.val = "redirect".data then (.error "not implemented".data, pos1)
    else (.error ("uknown identifier ".data ++ token.goString), pos1)
  | _ => (.error ("unexpected start token ".data ++ token.goString), pos1)

/-- The loop of `Parser.Parse` from lexer_test.go, with fuel (`none` = fuel
ran out; `Parse` below always supplies enough).  Comments are absorbed with
`advance`, an identifier is handed to `parseCommand` and the returned node
appended — both continue from the cursor `peek` left behind, which matters
when the peeked token was the array's last: `peek` then consumed it, so
`parseCommand` runs at end-of-input, returns a nil node, and the loop
succeeds with that nil node appended. -/
def parseLoopF : Nat → List item → Nat → Option (Except (List Char) (List (Option CommandNode)))
  | 0, _, _ => none
  | n + 1, tokens, pos =>
    match ppeek tokens pos with
    | (tk, pos1) =>
      match tk.typ with
      | .itemEOF => some (.ok [])
      | .itemComment => parseLoopF n tokens (padvance tokens pos1)
      | .itemIdentifier =>
        match parseCommandF tokens pos1 with
        | (.error e, _) => some (.error e)
        | (.ok node, pos2) =>
          (parseLoopF n tokens pos2).map (Except.map (fun rest => node :: rest))
      | _ => some (.error "unexpected token".data)

/-- `Parser.Parse` from lexer_test.go: run the loop from cursor 0.  The fuel
`tokens.length + 1` always suffices because every iteration either finishes,
advances the cursor, or moves it to the end of the array. -/
def ParseTokens (tokens : List item) : Option (Except (List Char) (List (Option CommandNode))) :=
  parseLoopF (tokens.length + 1) tokens 0

/-- `newParser` from lexer_test.go: drain the scanner into a token array,
failing on the first error item (wrapped as a syntax error).  The first fuel
bounds the number of tokens, the second is the per-`nextItem` scan fuel. -/
def newParserF : Nat → Nat → lexer → Option (Except (List Char) (List item))
  | 0, _, _ => none
  | k + 1, n, l =>
    match nextItemF n l with
    | none => none
    | some (l1, it) =>
      if it.typ = .itemError then
        some (.error ("syntax error: `".data ++ it.val ++ "`".data))
      else if it.typ = .itemEOF then some (.ok [])
      else (newParserF k n l1).map (Except.map (fun rest => it :: rest))

/-- The whole pipeline on a script: `lex`, `newParser`, `Parse`. -/
def parseScript (n : Nat) (s : List Char) : Option (Except (List Char) (List (Option CommandNode))) :=
  match newParserF n n (lexer.lex s) with
  | none => none
  | some (.error e) => some (.error e)
  | some (.ok toks) => ParseTokens toks

deriving instance DecidableEq for Except


/-!  Grammar predicates and result shapes used by the universal theorems. -/

/-- Well-formed quoted-string bodies, following the loop of `lexQuotedString`:
plain octets (no CR/LF/quote/backslash), the two supported escapes, and CRLF
pairs. -/
inductive QBody : List Char → Prop where
  | nil : QBody []
  | chr (c : Char) (t : List Char) :
      isOctetFiltered c ['\r', '\n', '"', '\\'] = true → QBody t → QBody (c :: t)
  | escQ (t : List Char) : QBody t → QBody ('\\' :: '"' :: t)
  | escB (t : List Char) : QBody t → QBody ('\\' :: '\\' :: t)
  | crlf (t : List Char) : QBody t → QBody ('\r' :: '\n' :: t)

/-- Well-formed bracket-comment bodies, following the loop of
`lexBracketComment`: plain octets (no CR/LF/star), CRLF pairs, and a star
followed by a non-slash. -/
inductive BracketBody : List Char → Prop where
  | nil : BracketBody []
  | chr (c : Char) (t : List Char) :
      isOctetFiltered c ['\r', '\n', '*'] = true → BracketBody t → BracketBody (c :: t)
  | crlf (t : List Char) : BracketBody t → BracketBody ('\r' :: '\n' :: t)
  | star (c : Char) (t : List Char) :
      c ≠ '/' → BracketBody (c :: t) → BracketBody ('*' :: c :: t)

/-- The item `emit` produces when the token being scanned ends at position
`P`: the raw input slice from `start` to `P`. -/
def emittedItem (l : lexer) (P : Nat) (t : itemType) : item :=
  ⟨t, l.start, (l.input.drop l.start).take (P - l.start)⟩

/-- The lexer state after `emit` of a token ending at position `P` (the last
`next` before the emit read a real rune, so `width` is 1). -/
def emittedState (l : lexer) (P : Nat) (t : itemType) : lexer :=
  { input := l.input, start := P, pos := P, atEOF := l.atEOF, width := 1,
    pending := emittedItem l P t }

/-- The node variants of a parsed command list, forgetting the recorded
positions (`NodeType` discriminants of node.go). -/
def nodeKinds (cs : List (Option CommandNode)) : List (Option Nat) :=
  cs.map (Option.map CommandNode.nodeType)

/-- A parse outcome up to node positions: fuel-exhaustion and errors are kept
as they are, successful trees are reduced to their node variants. -/
def kindsRes (r : Option (Except (List Char) (List (Option CommandNode)))) :
    Option (Except (List Char) (List (Option Nat))) :=
  r.map (Except.map nodeKinds)

/-- `Except.map` on the draft parser's `parseCommand` result, forgetting node
positions. -/
def kindE (r : Except (List Char) (Option CommandNode)) :
    Except (List Char) (Option Nat) :=
  r.map (Option.map CommandNode.nodeType)

/-! ### General-purpose lemmas about lists and the scanner driver -/

theorem getElem?_of_drop_eq {α : Type} {L : List α} {p : Nat} {c : α} {r : List α}
    (h : L.drop p = c :: r) : L[p]? = some c := by
  have h0 : (L.drop p)[0]? = some c := by rw [h]; simp
  rwa [List.getElem?_drop, Nat.add_zero] at h0

theorem getElem?_none_of_drop_nil {α : Type} {L : List α} {p : Nat} (h : L.drop p = []) :
    L[p]? = none := by
  have h0 : (L.drop p)[0]? = none := by rw [h]; simp
  rwa [List.getElem?_drop, Nat.add_zero] at h0

theorem drop_succ_of_drop_eq {α : Type} {L : List α} {p : Nat} {c : α} {r : List α}
    (h : L.drop p = c :: r) : L.drop (p + 1) = r := by
  rw [← List.drop_drop 1 p L, h]
  rfl

theorem take_append_cons {α : Type} (s : List α) (c : α) (r : List α) :
    (s ++ c :: r).take (s.length + 1) = s ++ [c] := by
  induction s with
  | nil => rfl
  | cons a s ih => simpa using ih

theorem take_append_cons2 {α : Type} (s : List α) (a b : α) (r : List α) :
    (s ++ a :: b :: r).take (s.length + 2) = s ++ [a, b] := by
  have h := take_append_cons (s ++ [a]) b r
  simp only [List.append_assoc, List.singleton_append, List.length_append,
    List.length_cons, List.length_nil] at h
  simpa using h

theorem runLex_succ {n : Nat} {s : LexState} {l : lexer} {x : lexer × item}
    (h : runLex n s l = some x) : runLex (n + 1) s l = some x := by
  induction n generalizing s l with
  | zero => simp [runLex] at h
  | succ n ih =>
    rw [runLex] at h ⊢
    cases hs : step s l with
    | halt l1 => rw [hs] at h; exact h
    | cont s1 l1 =>
      rw [hs] at h
      exact ih h

theorem runLex_mono {n m : Nat} {s : LexState} {l : lexer} {x : lexer × item}
    (h : runLex n s l = some x) (hnm : n ≤ m) : runLex m s l = some x := by
  induction m, hnm using Nat.le_induction with
  | base => exact h
  | succ m hm ih => exact runLex_succ ih

/-! ### The quoted-string loop -/

/-- Running the quoted-string loop of `lexQuotedString` over a well-formed
body followed by the closing quote emits a string item holding the raw slice
from `start` to just past the closing quote. -/
theorem runLex_quotedLoop_emit {s : List Char} (hs : QBody s) :
    ∀ (l : lexer) (rest : List Char) (P : Nat),
      l.input.drop l.pos = s ++ '"' :: rest → P = l.pos + s.length + 1 →
      runLex (s.length + 1) .quotedLoopS l =
        some (emittedState l P .itemString, emittedItem l P .itemString) := by
  induction hs with
  | nil =>
    intro l rest P hdrop hP
    have hget : l.input[l.pos]? = some '"' := getElem?_of_drop_eq (by simpa using hdrop)
    subst hP
    have hoct : isOctetFiltered '"' ['\r', '\n', '"', '\\'] = false := by decide
    rw [show ([] : List Char).length + 1 = 1 from rfl, runLex]
    simp [step, lexer.next, hget, hoct, emitStep, lexer.thisItem, emittedState, emittedItem]
  | chr c t hoct ht ih =>
    intro l rest P hdrop hP
    rw [List.cons_append] at hdrop
    have hget : l.input[l.pos]? = some c := getElem?_of_drop_eq hdrop
    have hdrop1 : l.input.drop (l.pos + 1) = t ++ '"' :: rest := drop_succ_of_drop_eq hdrop
    have ih' := ih { l with width := 1, pos := l.pos + 1 } rest P hdrop1 (by
      show P = l.pos + 1 + t.length + 1
      simp only [List.length_cons] at hP
      omega)
    rw [show (c :: t).length + 1 = (t.length + 1) + 1 from by simp, runLex]
    simp only [step, lexer.next, hget, hoct, if_true]
    exact ih'
  | escQ t ht ih =>
    intro l rest P hdrop hP
    rw [List.cons_append, List.cons_append] at hdrop
    have hget : l.input[l.pos]? = some '\\' := getElem?_of_drop_eq hdrop
    have hdrop1 : l.input.drop (l.pos + 1) = '"' :: (t ++ '"' :: rest) :=
      drop_succ_of_drop_eq hdrop
    have hget1 : l.input[l.pos + 1]? = some '"' := getElem?_of_drop_eq hdrop1
    have hdrop2 : l.input.drop (l.pos + 1 + 1) = t ++ '"' :: rest :=
      drop_succ_of_drop_eq hdrop1
    have ih' := ih { l with width := 1, pos := l.pos + 1 + 1 } rest P hdrop2 (by
      show P = l.pos + 1 + 1 + t.length + 1
      simp only [List.length_cons] at hP
      omega)
    rw [show ('\\' :: '"' :: t).length + 1 = (t.length + 2) + 1 from by simp, runLex]
    simp only [step, lexer.next, hget, hget1]
    norm_num
    exact runLex_mono ih' (by omega)
  | escB t ht ih =>
    intro l rest P hdrop hP
    rw [List.cons_append, List.cons_append] at hdrop
    have hget : l.input[l.pos]? = some '\\' := getElem?_of_drop_eq hdrop
    have hdrop1 : l.input.drop (l.pos + 1) = '\\' :: (t ++ '"' :: rest) :=
      drop_succ_of_drop_eq hdrop
    have hget1 : l.input[l.pos + 1]? = some '\\' := getElem?_of_drop_eq hdrop1
    have hdrop2 : l.input.drop (l.pos + 1 + 1) = t ++ '"' :: rest :=
      drop_succ_of_drop_eq hdrop1
    have ih' := ih { l with width := 1, pos := l.pos + 1 + 1 } rest P hdrop2 (by
      show P = l.pos + 1 + 1 + t.length + 1
      simp only [List.length_cons] at hP
      omega)
    rw [show ('\\' :: '\\' :: t).length + 1 = (t.length + 2) + 1 from by simp, runLex]
    simp only [step, lexer.next, hget, hget1]
    norm_num
    exact runLex_mono ih' (by omega)
  | crlf t ht ih =>
    intro l rest P hdrop hP
    rw [List.cons_append, List.cons_append] at hdrop
    have hget : l.input[l.pos]? = some '\r' := getElem?_of_drop_eq hdrop
    have hdrop1 : l.input.drop (l.pos + 1) = '\n' :: (t ++ '"' :: rest) :=
      drop_succ_of_drop_eq hdrop
    have hget1 : l.input[l.pos + 1]? = some '\n' := getElem?_of_drop_eq hdrop1
    have hdrop2 : l.input.drop (l.pos + 1 + 1) = t ++ '"' :: rest :=
      drop_succ_of_drop_eq hdrop1
    have ih' := ih { l with width := 1, pos := l.pos + 1 + 1 } rest P hdrop2 (by
      show P = l.pos + 1 + 1 + t.length + 1
      simp only [List.length_cons] at hP
      omega)
    rw [show ('\r' :: '\n' :: t).length + 1 = (t.length + 2) + 1 from by simp, runLex]
    simp only [step, lexer.next, hget, hget1, lexer.acceptExact]
    norm_num
    exact runLex_mono ih' (by omega)

/-- Running the quoted-string loop over a well-formed body that is the whole
remaining input halts (the Go state returns `nil` at EOF) with the pending
item untouched. -/
theorem runLex_quotedLoop_eof {s : List Char} (hs : QBody s) :
    ∀ (l : lexer) (P : Nat), l.input.drop l.pos = s → P = l.pos + s.length →
      runLex (s.length + 1) .quotedLoopS l =
        some ({ l with pos := P, width := 0 }, l.pending) := by
  induction hs with
  | nil =>
    intro l P hdrop hP
    have hget : l.input[l.pos]? = none := getElem?_none_of_drop_nil hdrop
    subst hP
    rw [show ([] : List Char).length + 1 = 1 from rfl, runLex]
    simp [step, lexer.next, hget]
  | chr c t hoct ht ih =>
    intro l P hdrop hP
    have hget : l.input[l.pos]? = some c := getElem?_of_drop_eq hdrop
    have hdrop1 : l.input.drop (l.pos + 1) = t := drop_succ_of_drop_eq hdrop
    have ih' := ih { l with width := 1, pos := l.pos + 1 } P hdrop1 (by
      show P = l.pos + 1 + t.length
      simp only [List.length_cons] at hP
      omega)
    rw [show (c :: t).length + 1 = (t.length + 1) + 1 from by simp, runLex]
    simp only [step, lexer.next, hget, hoct, if_true]
    exact ih'
  | escQ t ht ih =>
    intro l P hdrop hP
    have hget : l.input[l.pos]? = some '\\' := getElem?_of_drop_eq hdrop
    have hdrop1 : l.input.drop (l.pos + 1) = '"' :: t := drop_succ_of_drop_eq hdrop
    have hget1 : l.input[l.pos + 1]? = some '"' := getElem?_of_drop_eq hdrop1
    have hdrop2 : l.input.drop (l.pos + 1 + 1) = t := drop_succ_of_drop_eq hdrop1
    have ho : isOctetFiltered '\\' ['\r', '\n', '"', '\\'] = false := by decide
    have ih' := ih { l with width := 1, pos := l.pos + 1 + 1 } P hdrop2 (by
      show P = l.pos + 1 + 1 + t.length
      simp only [List.length_cons] at hP
      omega)
    rw [show ('\\' :: '"' :: t).length + 1 = (t.length + 2) + 1 from by simp, runLex]
    simp only [step, lexer.next, hget, hget1, ho]
    norm_num
    exact runLex_mono ih' (by omega)
  | escB t ht ih =>
    intro l P hdrop hP
    have hget : l.input[l.pos]? = some '\\' := getElem?_of_drop_eq hdrop
    have hdrop1 : l.input.drop (l.pos + 1) = '\\' :: t := drop_succ_of_drop_eq hdrop
    have hget1 : l.input[l.pos + 1]? = some '\\' := getElem?_of_drop_eq hdrop1
    have hdrop2 : l.input.drop (l.pos + 1 + 1) = t := drop_succ_of_drop_eq hdrop1
    have ho : isOctetFiltered '\\' ['\r', '\n', '"', '\\'] = false := by decide
    have ih' := ih { l with width := 1, pos := l.pos + 1 + 1 } P hdrop2 (by
      show P = l.pos + 1 + 1 + t.length
      simp only [List.length_cons] at hP
      omega)
    rw [show ('\\' :: '\\' :: t).length + 1 = (t.length + 2) + 1 from by simp, runLex]
    simp only [step, lexer.next, hget, hget1, ho]
    norm_num
    exact runLex_mono ih' (by omega)
  | crlf t ht ih =>
    intro l P hdrop hP
    have hget : l.input[l.pos]? = some '\r' := getElem?_of_drop_eq hdrop
    have hdrop1 : l.input.drop (l.pos + 1) = '\n' :: t := drop_succ_of_drop_eq hdrop
    have hget1 : l.input[l.pos + 1]? = some '\n' := getElem?_of_drop_eq hdrop1
    have hdrop2 : l.input.drop (l.pos + 1 + 1) = t := drop_succ_of_drop_eq hdrop1
    have ho : isOctetFiltered '\r' ['\r', '\n', '"', '\\'] = false := by decide
    have ih' := ih { l with width := 1, pos := l.pos + 1 + 1 } P hdrop2 (by
      show P = l.pos + 1 + 1 + t.length
      simp only [List.length_cons] at hP
      omega)
    rw [show ('\r' :: '\n' :: t).length + 1 = (t.length + 2) + 1 from by simp, runLex]
    simp only [step, lexer.next, hget, hget1, lexer.acceptExact, ho]
    norm_num
    exact runLex_mono ih' (by omega)

/-! ### The comment loops -/

/-- Running the hash-comment loop of `lexHashComment` over a body of plain
octets followed by CRLF emits a comment item; the CR that ends the comment is
backed over, so the terminator is left unconsumed (`P` is the position of the
CR).  The lexer is given with its never-assigned `atEOF` field at its initial
value `false`. -/
theorem runLex_hashLoop :
    ∀ (body : List Char), (∀ c ∈ body, isOctetFiltered c ['\r', '\n'] = true) →
    ∀ (inp : List Char) (st po wd : Nat) (pd : item) (rest : List Char) (P : Nat),
      inp.drop po = body ++ '\r' :: '\n' :: rest → P = po + body.length →
      runLex (body.length + 1) .hashCommentS ⟨inp, st, po, false, wd, pd⟩ =
        some (emittedState ⟨inp, st, po, false, wd, pd⟩ P .itemComment,
              emittedItem ⟨inp, st, po, false, wd, pd⟩ P .itemComment) := by
  intro body
  induction body with
  | nil =>
    intro _ inp st po wd pd rest P hdrop hP
    rw [List.nil_append] at hdrop
    have hget : inp[po]? = some '\r' := getElem?_of_drop_eq hdrop
    have hdrop1 : inp.drop (po + 1) = '\n' :: rest := drop_succ_of_drop_eq hdrop
    have hget1 : inp[po + 1]? = some '\n' := getElem?_of_drop_eq hdrop1
    have ho : isOctetFiltered '\r' ['\r', '\n'] = false := by decide
    subst hP
    rw [show ([] : List Char).length + 1 = 1 from rfl, runLex]
    simp [step, lexer.next, hget, hget1, ho, lexer.isExactPrefixAt, lexer.isExactPrefixAt.go,
      lexer.backup, emitStep, lexer.thisItem, emittedState, emittedItem]
  | cons c body ih =>
    intro hb inp st po wd pd rest P hdrop hP
    rw [List.cons_append] at hdrop
    have hget : inp[po]? = some c := getElem?_of_drop_eq hdrop
    have hdrop1 : inp.drop (po + 1) = body ++ '\r' :: '\n' :: rest :=
      drop_succ_of_drop_eq hdrop
    have hoct : isOctetFiltered c ['\r', '\n'] = true := hb c (by simp)
    have ih' := ih (fun x hx => hb x (by simp [hx])) inp st (po + 1) 1 pd rest P hdrop1 (by
      simp only [List.length_cons] at hP
      omega)
    rw [show (c :: body).length + 1 = (body.length + 1) + 1 from by simp, runLex]
    simp only [step, lexer.next, hget, hoct, if_true]
    exact ih'

/-- Running the bracket-comment loop of `lexBracketComment` over a well-formed
body followed by the closing `*/` emits a comment item whose end position `P`
is just past the `*/`. -/
theorem runLex_bracketLoop {body : List Char} (hbb : BracketBody body) :
    ∀ (inp : List Char) (st po wd : Nat) (pd : item) (rest : List Char) (P : Nat),
      inp.drop po = body ++ '*' :: '/' :: rest → P = po + body.length + 2 →
      runLex (body.length + 1) .bracketCommentS ⟨inp, st, po, false, wd, pd⟩ =
        some (emittedState ⟨inp, st, po, false, wd, pd⟩ P .itemComment,
              emittedItem ⟨inp, st, po, false, wd, pd⟩ P .itemComment) := by
  induction hbb with
  | nil =>
    intro inp st po wd pd rest P hdrop hP
    rw [List.nil_append] at hdrop
    have hget : inp[po]? = some '*' := getElem?_of_drop_eq hdrop
    have hdrop1 : inp.drop (po + 1) = '/' :: rest := drop_succ_of_drop_eq hdrop
    have hget1 : inp[po + 1]? = some '/' := getElem?_of_drop_eq hdrop1
    have ho : isOctetFiltered '*' ['\r', '\n', '*'] = false := by decide
    subst hP
    rw [show ([] : List Char).length + 1 = 1 from rfl, runLex]
    simp [step, lexer.next, hget, hget1, ho, emitStep, lexer.thisItem, emittedState,
      emittedItem, Nat.add_assoc]
  | chr c t hoct ht ih =>
    intro inp st po wd pd rest P hdrop hP
    rw [List.cons_append] at hdrop
    have hget : inp[po]? = some c := getElem?_of_drop_eq hdrop
    have hdrop1 : inp.drop (po + 1) = t ++ '*' :: '/' :: rest := drop_succ_of_drop_eq hdrop
    have ih' := ih inp st (po + 1) 1 pd rest P hdrop1 (by
      simp only [List.length_cons] at hP
      omega)
    rw [show (c :: t).length + 1 = (t.length + 1) + 1 from by simp, runLex]
    simp only [step, lexer.next, hget, hoct, if_true]
    exact ih'
  | crlf t ht ih =>
    intro inp st po wd pd rest P hdrop hP
    rw [List.cons_append, List.cons_append] at hdrop
    have hget : inp[po]? = some '\r' := getElem?_of_drop_eq hdrop
    have hdrop1 : inp.drop (po + 1) = '\n' :: (t ++ '*' :: '/' :: rest) :=
      drop_succ_of_drop_eq hdrop
    have hget1 : inp[po + 1]? = some '\n' := getElem?_of_drop_eq hdrop1
    have hdrop2 : inp.drop (po + 1 + 1) = t ++ '*' :: '/' :: rest :=
      drop_succ_of_drop_eq hdrop1
    have ho : isOctetFiltered '\r' ['\r', '\n', '*'] = false := by decide
    have ih' := ih inp st (po + 1 + 1) 1 pd rest P hdrop2 (by
      simp only [List.length_cons] at hP
      omega)
    rw [show ('\r' :: '\n' :: t).length + 1 = (t.length + 2) + 1 from by simp, runLex]
    simp only [step, lexer.next, hget, hget1, ho]
    norm_num
    exact runLex_mono ih' (by omega)
  | star c t hne hcb ih =>
    intro inp st po wd pd rest P hdrop hP
    rw [List.cons_append, List.cons_append] at hdrop
    have hget : inp[po]? = some '*' := getElem?_of_drop_eq hdrop
    have hdrop1 : inp.drop (po + 1) = c :: (t ++ '*' :: '/' :: rest) :=
      drop_succ_of_drop_eq hdrop
    have hget1 : inp[po + 1]? = some c := getElem?_of_drop_eq hdrop1
    have hdrop1' : inp.drop (po + 1) = (c :: t) ++ '*' :: '/' :: rest := by
      simpa using hdrop1
    have hne' : ¬(some c = some '/') := by simpa using hne
    have ih' := ih inp st (po + 1) 1 pd rest P hdrop1' (by
      simp only [List.length_cons] at hP ⊢
      omega)
    rw [show ('*' :: c :: t).length + 1 = ((c :: t).length + 1) + 1 from by simp, runLex]
    simp only [step, lexer.next, hget, hget1]
    rw [if_neg (by decide : ¬(isOctetFiltered '*' ['\r', '\n', '*'] = true))]
    rw [if_neg (by decide : ¬(('*' : Char) = '\r'))]
    rw [if_pos trivial]
    rw [if_neg hne']
    simp only [lexer.backup, Bool.not_false, Bool.true_and, Nat.add_sub_cancel]
    norm_num
    exact ih'

/-! ### Whole-scan runs for the string/comment constructs -/

/-- A well-formed quoted string at the head of the input scans to a string
item whose value is the raw matched slice: the opening and closing quote are
included and the escape sequences are left exactly as written. -/
theorem nextItem_quoted_emit (s rest : List Char) (hs : QBody s) :
    nextItemF (s.length + 3) (lexer.lex ('"' :: (s ++ '"' :: rest))) =
      some (⟨'"' :: (s ++ '"' :: rest), s.length + 2, s.length + 2, false, 1,
             ⟨.itemString, 0, '"' :: (s ++ ['"'])⟩⟩,
            ⟨.itemString, 0, '"' :: (s ++ ['"'])⟩) := by
  have hloop := runLex_quotedLoop_emit hs
    ⟨'"' :: (s ++ '"' :: rest), 0, 1, false, 1, ⟨.itemEOF, 0, "EOF".data⟩⟩ rest
    (s.length + 2) (by simp) (by simp; omega)
  have h1 : step .startS ⟨'"' :: (s ++ '"' :: rest), 0, 0, false, 0, ⟨.itemEOF, 0, "EOF".data⟩⟩ =
      .cont .quotedStringS ⟨'"' :: (s ++ '"' :: rest), 0, 0, false, 1, ⟨.itemEOF, 0, "EOF".data⟩⟩ := by
    simp [step, lexer.peekc, lexer.next, lexer.backup, isWhitespaceC, isAlphaC]
  have h2 : step .quotedStringS ⟨'"' :: (s ++ '"' :: rest), 0, 0, false, 1, ⟨.itemEOF, 0, "EOF".data⟩⟩ =
      .cont .quotedLoopS ⟨'"' :: (s ++ '"' :: rest), 0, 1, false, 1, ⟨.itemEOF, 0, "EOF".data⟩⟩ := by
    simp [step, lexer.acceptExact, lexer.next]
  show runLex (s.length + 1 + 1 + 1) .startS
    ⟨'"' :: (s ++ '"' :: rest), 0, 0, false, 0, ⟨.itemEOF, 0, "EOF".data⟩⟩ = _
  rw [runLex, h1]
  show runLex (s.length + 1 + 1) .quotedStringS
    ⟨'"' :: (s ++ '"' :: rest), 0, 0, false, 1, ⟨.itemEOF, 0, "EOF".data⟩⟩ = _
  rw [runLex, h2]
  show runLex (s.length + 1) .quotedLoopS
    ⟨'"' :: (s ++ '"' :: rest), 0, 1, false, 1, ⟨.itemEOF, 0, "EOF".data⟩⟩ = _
  rw [hloop]
  simp [emittedState, emittedItem, take_append_cons]

/-- A quoted string whose body reaches the end of the input without a closing
quote scans to the pending end-of-input item (not an error): the quoted-string
state returns `nil` at EOF and `nextItem` hands back its preset EOF item. -/
theorem nextItem_quoted_eof (s : List Char) (hs : QBody s) :
    nextItemF (s.length + 3) (lexer.lex ('"' :: s)) =
      some (⟨'"' :: s, 0, s.length + 1, false, 0, ⟨.itemEOF, 0, "EOF".data⟩⟩,
            ⟨.itemEOF, 0, "EOF".data⟩) := by
  have hloop := runLex_quotedLoop_eof hs
    ⟨'"' :: s, 0, 1, false, 1, ⟨.itemEOF, 0, "EOF".data⟩⟩ (s.length + 1) (by simp)
    (by show s.length + 1 = 1 + s.length; omega)
  have h1 : step .startS ⟨'"' :: s, 0, 0, false, 0, ⟨.itemEOF, 0, "EOF".data⟩⟩ =
      .cont .quotedStringS ⟨'"' :: s, 0, 0, false, 1, ⟨.itemEOF, 0, "EOF".data⟩⟩ := by
    simp [step, lexer.peekc, lexer.next, lexer.backup, isWhitespaceC, isAlphaC]
  have h2 : step .quotedStringS ⟨'"' :: s, 0, 0, false, 1, ⟨.itemEOF, 0, "EOF".data⟩⟩ =
      .cont .quotedLoopS ⟨'"' :: s, 0, 1, false, 1, ⟨.itemEOF, 0, "EOF".data⟩⟩ := by
    simp [step, lexer.acceptExact, lexer.next]
  show runLex (s.length + 1 + 1 + 1) .startS
    ⟨'"' :: s, 0, 0, false, 0, ⟨.itemEOF, 0, "EOF".data⟩⟩ = _
  rw [runLex, h1]
  show runLex (s.length + 1 + 1) .quotedStringS
    ⟨'"' :: s, 0, 0, false, 1, ⟨.itemEOF, 0, "EOF".data⟩⟩ = _
  rw [runLex, h2]
  show runLex (s.length + 1) .quotedLoopS
    ⟨'"' :: s, 0, 1, false, 1, ⟨.itemEOF, 0, "EOF".data⟩⟩ = _
  rw [hloop]

/-- A hash comment at the head of the input scans to a comment item whose
value keeps the leading `#` and stops before the CRLF; the CRLF itself is left
unconsumed (the final position is that of the CR). -/
theorem nextItem_hash (body rest : List Char)
    (hb : ∀ c ∈ body, isOctetFiltered c ['\r', '\n'] = true) :
    nextItemF (body.length + 3) (lexer.lex ('#' :: (body ++ '\r' :: '\n' :: rest))) =
      some (⟨'#' :: (body ++ '\r' :: '\n' :: rest), body.length + 1, body.length + 1, false, 1,
             ⟨.itemComment, 0, '#' :: body⟩⟩,
            ⟨.itemComment, 0, '#' :: body⟩) := by
  have hloop := runLex_hashLoop body hb ('#' :: (body ++ '\r' :: '\n' :: rest)) 0 1 1
    ⟨.itemEOF, 0, "EOF".data⟩ rest (body.length + 1) (by simp) (by omega)
  have h1 : step .startS
      ⟨'#' :: (body ++ '\r' :: '\n' :: rest), 0, 0, false, 0, ⟨.itemEOF, 0, "EOF".data⟩⟩ =
      .cont .whitespaceS
      ⟨'#' :: (body ++ '\r' :: '\n' :: rest), 0, 0, false, 1, ⟨.itemEOF, 0, "EOF".data⟩⟩ := by
    simp [step, lexer.peekc, lexer.next, lexer.backup, isWhitespaceC]
  have h2 : step .whitespaceS
      ⟨'#' :: (body ++ '\r' :: '\n' :: rest), 0, 0, false, 1, ⟨.itemEOF, 0, "EOF".data⟩⟩ =
      .cont .hashCommentS
      ⟨'#' :: (body ++ '\r' :: '\n' :: rest), 0, 1, false, 1, ⟨.itemEOF, 0, "EOF".data⟩⟩ := by
    simp [step, lexer.next]
  show runLex (body.length + 1 + 1 + 1) .startS
    ⟨'#' :: (body ++ '\r' :: '\n' :: rest), 0, 0, false, 0, ⟨.itemEOF, 0, "EOF".data⟩⟩ = _
  rw [runLex, h1]
  show runLex (body.length + 1 + 1) .whitespaceS
    ⟨'#' :: (body ++ '\r' :: '\n' :: rest), 0, 0, false, 1, ⟨.itemEOF, 0, "EOF".data⟩⟩ = _
  rw [runLex, h2]
  show runLex (body.length + 1) .hashCommentS
    ⟨'#' :: (body ++ '\r' :: '\n' :: rest), 0, 1, false, 1, ⟨.itemEOF, 0, "EOF".data⟩⟩ = _
  rw [hloop]
  simp [emittedState, emittedItem, List.take_left]

/-- A bracket comment at the head of the input scans to a comment item whose
value keeps both the opening `/*` and the closing `*/`. -/
theorem nextItem_bracket (body rest : List Char) (hbb : BracketBody body) :
    nextItemF (body.length + 3) (lexer.lex ('/' :: '*' :: (body ++ '*' :: '/' :: rest))) =
      some (⟨'/' :: '*' :: (body ++ '*' :: '/' :: rest), body.length + 4, body.length + 4,
             false, 1, ⟨.itemComment, 0, '/' :: '*' :: (body ++ ['*', '/'])⟩⟩,
            ⟨.itemComment, 0, '/' :: '*' :: (body ++ ['*', '/'])⟩) := by
  have hloop := runLex_bracketLoop hbb ('/' :: '*' :: (body ++ '*' :: '/' :: rest)) 0 2 1
    ⟨.itemEOF, 0, "EOF".data⟩ rest (body.length + 4) (by simp) (by omega)
  have h1 : step .startS
      ⟨'/' :: '*' :: (body ++ '*' :: '/' :: rest), 0, 0, false, 0, ⟨.itemEOF, 0, "EOF".data⟩⟩ =
      .cont .whitespaceS
      ⟨'/' :: '*' :: (body ++ '*' :: '/' :: rest), 0, 0, false, 1, ⟨.itemEOF, 0, "EOF".data⟩⟩ := by
    simp [step, lexer.peekc, lexer.next, lexer.backup, isWhitespaceC]
  have h2 : step .whitespaceS
      ⟨'/' :: '*' :: (body ++ '*' :: '/' :: rest), 0, 0, false, 1, ⟨.itemEOF, 0, "EOF".data⟩⟩ =
      .cont .bracketCommentS
      ⟨'/' :: '*' :: (body ++ '*' :: '/' :: rest), 0, 2, false, 1, ⟨.itemEOF, 0, "EOF".data⟩⟩ := by
    simp [step, lexer.next]
  show runLex (body.length + 1 + 1 + 1) .startS
    ⟨'/' :: '*' :: (body ++ '*' :: '/' :: rest), 0, 0, false, 0, ⟨.itemEOF, 0, "EOF".data⟩⟩ = _
  rw [runLex, h1]
  show runLex (body.length + 1 + 1) .whitespaceS
    ⟨'/' :: '*' :: (body ++ '*' :: '/' :: rest), 0, 0, false, 1, ⟨.itemEOF, 0, "EOF".data⟩⟩ = _
  rw [runLex, h2]
  show runLex (body.length + 1) .bracketCommentS
    ⟨'/' :: '*' :: (body ++ '*' :: '/' :: rest), 0, 2, false, 1, ⟨.itemEOF, 0, "EOF".data⟩⟩ = _
  rw [hloop]
  simp [emittedState, emittedItem, take_append_cons2]

/-! ### Tree-builder lemmas -/

theorem getElem?_eraseIdx_lt {α : Type} :
    ∀ (T : List α) (k j : Nat), j < k → (T.eraseIdx k)[j]? = T[j]? := by
  intro T
  induction T with
  | nil => intro k j _; simp [List.eraseIdx]
  | cons a t ih =>
    intro k j h
    cases k with
    | zero => omega
    | succ k =>
      cases j with
      | zero => simp [List.eraseIdx]
      | succ j => simpa [List.eraseIdx] using ih k j (by omega)

theorem getElem?_eraseIdx_ge {α : Type} :
    ∀ (T : List α) (k j : Nat), k ≤ j → (T.eraseIdx k)[j]? = T[j + 1]? := by
  intro T
  induction T with
  | nil => intro k j _; simp [List.eraseIdx]
  | cons a t ih =>
    intro k j h
    cases k with
    | zero => simp [List.eraseIdx]
    | succ k =>
      cases j with
      | zero => omega
      | succ j => simpa [List.eraseIdx] using ih k j (by omega)

theorem length_eraseIdx' {α : Type} :
    ∀ (T : List α) (k : Nat), k < T.length → (T.eraseIdx k).length = T.length - 1 := by
  intro T
  induction T with
  | nil => intro k h; simp at h
  | cons a t ih =>
    intro k h
    cases k with
    | zero => simp [List.eraseIdx]
    | succ k =>
      have hk : k < t.length := by simpa using h
      simp [List.eraseIdx, ih k hk]
      omega

theorem length_le_of_getElem?_none {α : Type} {L : List α} {p : Nat}
    (h : L[p]? = none) : L.length ≤ p := by
  by_contra hc
  push_neg at hc
  rw [List.getElem?_eq_getElem hc] at h
  simp at h

theorem getElem?_none_of_length_le {α : Type} {L : List α} {p : Nat}
    (h : L.length ≤ p) : L[p]? = none := by
  cases hL : L[p]? with
  | none => rfl
  | some a =>
    have := (List.getElem?_eq_some.mp hL).1
    omega

/-- `peek` past the end of the array: `next` synthesizes the end-of-input item
without moving and `backup` is a no-op. -/
theorem ppeek_none {tokens : List item} {pos : Nat} (hg : tokens[pos]? = none) :
    ppeek tokens pos = (⟨.itemEOF, pos, "EOF".data⟩, pos) := by
  have hlen := length_le_of_getElem?_none hg
  simp only [ppeek, pnext, hg, pbackup]
  rw [if_neg (by omega)]

/-- `peek` with at least one more token behind the peeked one: `backup` undoes
the advance and the cursor is restored. -/
theorem ppeek_interior {tokens : List item} {pos : Nat} {it : item}
    (hg : tokens[pos]? = some it) (hlt : pos + 1 < tokens.length) :
    ppeek tokens pos = (it, pos) := by
  simp only [ppeek, pnext, hg, pbackup]
  rw [if_pos (by omega)]
  simp

/-- `peek` of the LAST token of the array: `next` moves the cursor to the end,
where `backup` is a no-op, so the peek also consumes the token. -/
theorem ppeek_last {tokens : List item} {pos : Nat} {it : item}
    (hg : tokens[pos]? = some it) (hlen : pos + 1 = tokens.length) :
    ppeek tokens pos = (it, pos + 1) := by
  simp only [ppeek, pnext, hg, pbackup]
  rw [if_neg (by omega)]

theorem padvance_some {tokens : List item} {pos : Nat} {it : item}
    (hg : tokens[pos]? = some it) : padvance tokens pos = pos + 1 := by
  simp [padvance, pnext, hg]

theorem padvance_none {tokens : List item} {pos : Nat}
    (hg : tokens[pos]? = none) : padvance tokens pos = pos := by
  simp [padvance, pnext, hg]

/-- `parseCommand` with the cursor at (or past) the end of the array: the
`next` read is the synthesized end-of-input item, so the EOF case returns a
nil node and no error, with the cursor unmoved. -/
theorem parseCommandF_at_none {tokens : List item} {pos : Nat}
    (hg : tokens[pos]? = none) : parseCommandF tokens pos = (.ok none, pos) := by
  simp [parseCommandF, pnext, hg]

theorem parseLoopF_succ {n : Nat} {tokens : List item} {pos : Nat}
    {x : Except (List Char) (List (Option CommandNode))}
    (h : parseLoopF n tokens pos = some x) : parseLoopF (n + 1) tokens pos = some x := by
  induction n generalizing pos x with
  | zero => simp [parseLoopF] at h
  | succ n ih =>
    rw [parseLoopF] at h ⊢
    rcases hpk : ppeek tokens pos with ⟨tk, pos'⟩
    rw [hpk] at h
    simp only [] at h ⊢
    cases htyp : tk.typ <;> (try rw [htyp] at h) <;> try exact h
    case itemComment => exact ih h
    case itemIdentifier =>
      rcases hpc : parseCommandF tokens pos' with ⟨res, pos2⟩
      rw [hpc] at h
      cases res with
      | error e => exact h
      | ok node =>
        simp only [] at h ⊢
        rcases hmap : parseLoopF n tokens pos2 with _ | y
        · rw [hmap] at h
          simp at h
        · rw [hmap] at h
          rw [ih hmap]
          exact h

theorem parseLoopF_mono {n m : Nat} {tokens : List item} {pos : Nat}
    {x : Except (List Char) (List (Option CommandNode))}
    (h : parseLoopF n tokens pos = some x) (hnm : n ≤ m) : parseLoopF m tokens pos = some x := by
  induction m, hnm using Nat.le_induction with
  | base => exact h
  | succ m hm ih => exact parseLoopF_succ ih

/-- When `parseCommand` consumes an identifier token and succeeds, the cursor
has moved exactly over the identifier and its end-marker. -/
theorem parseCommandF_ok_pos {tokens : List item} {pos : Nat} {it : item}
    (hg : tokens[pos]? = some it) (hid : it.typ = .itemIdentifier)
    {node : Option CommandNode} {pos1 : Nat}
    (h : parseCommandF tokens pos = (.ok node, pos1)) : pos1 = pos + 2 := by
  rw [parseCommandF] at h
  simp only [pnext, hg, hid] at h
  split_ifs at h <;> try simp at h
  all_goals
    rcases hg2 : tokens[pos + 1]? with _ | it2 <;>
      simp only [finishAction, paccept, pnext, pbackup, hg2] at h <;>
      split_ifs at h <;> simp_all <;> omega

/-- With fuel exceeding the number of remaining tokens, the `Parse` loop
always returns (every iteration either moves the cursor forward or moves it to
the end of the array, from where the next iteration finishes). -/
theorem parseLoopF_isSome {tokens : List item} :
    ∀ (n pos : Nat), tokens.length - pos < n → (parseLoopF n tokens pos).isSome := by
  intro n
  induction n with
  | zero => intro pos h; omega
  | succ n ih =>
    intro pos h
    rw [parseLoopF]
    rcases hg : tokens[pos]? with _ | it
    · rw [ppeek_none hg]
      simp
    · obtain ⟨hlt, -⟩ := List.getElem?_eq_some.mp hg
      rcases Nat.lt_or_ge (pos + 1) tokens.length with hint | hlast
      · rw [ppeek_interior hg hint]
        simp only []
        cases htyp : it.typ
        case itemComment =>
          rw [padvance_some hg]
          exact ih (pos + 1) (by omega)
        case itemIdentifier =>
          rcases hpc : parseCommandF tokens pos with ⟨res, pos2⟩
          cases res with
          | error e => simp
          | ok node =>
            have hpos2 : pos2 = pos + 2 := parseCommandF_ok_pos hg htyp hpc
            have hrec := ih pos2 (by omega)
            rcases hsome : parseLoopF n tokens pos2 with _ | y
            · rw [hsome] at hrec
              simp at hrec
            · simp only []
              rw [hsome]
              simp
        all_goals simp
      · have hlasteq : pos + 1 = tokens.length := by omega
        have hnone : tokens[pos + 1]? = none := getElem?_none_of_length_le (by omega)
        rw [ppeek_last hg hlasteq]
        simp only []
        cases htyp : it.typ
        case itemComment =>
          rw [padvance_none hnone]
          exact ih (pos + 1) (by omega)
        case itemIdentifier =>
          rw [parseCommandF_at_none hnone]
          simp only []
          have hrec := ih (pos + 1) (by omega)
          rcases hsome : parseLoopF n tokens (pos + 1) with _ | y
          · rw [hsome] at hrec
            simp at hrec
          · simp
        all_goals simp

theorem kindE_error_iff {r : Except (List Char) (Option CommandNode)} {e : List Char} :
    kindE r = .error e ↔ r = .error e := by
  cases r <;> simp [kindE, Except.map]

theorem kindsRes_cons (o : Option (Except (List Char) (List (Option CommandNode))))
    (node : Option CommandNode) :
    kindsRes (o.map (Except.map fun rest => node :: rest)) =
      (kindsRes o).map (Except.map
        fun rest => (Option.map CommandNode.nodeType node) :: rest) := by
  rcases o with _ | r
  · rfl
  · cases r <;> simp [kindsRes, nodeKinds, Except.map]

/-- `accept` on the shortened array, one cursor position earlier: the same
verdict, and the new cursor is the old one shifted (also through the `backup`
of a failed accept, because the distance to the end of the array is the same
on both sides). -/
theorem paccept_eraseIdx {T : List item} {k p : Nat} (hk : k < p) (hklen : k < T.length)
    (t : itemType) :
    (paccept (T.eraseIdx k) (p - 1) t).1 = (paccept T p t).1 ∧
    (paccept (T.eraseIdx k) (p - 1) t).2 = (paccept T p t).2 - 1 ∧
    p ≤ (paccept T p t).2 := by
  have hp1 : p - 1 + 1 = p := by omega
  have hpeek : (T.eraseIdx k)[p - 1]? = T[p]? := by
    rw [getElem?_eraseIdx_ge _ _ _ (by omega), hp1]
  have hlen : (T.eraseIdx k).length = T.length - 1 := length_eraseIdx' T k hklen
  rcases hg : T[p]? with _ | it
  · have hg' : (T.eraseIdx k)[p - 1]? = none := by rw [hpeek, hg]
    have hplen := length_le_of_getElem?_none hg
    simp only [paccept, pnext, pbackup, hg, hg']
    split_ifs <;> refine ⟨?_, ?_, ?_⟩ <;> simp_all <;> omega
  · have hg' : (T.eraseIdx k)[p - 1]? = some it := by rw [hpeek, hg]
    have hplt : p < T.length := (List.getElem?_eq_some.mp hg).1
    simp only [paccept, pnext, pbackup, hg, hg', hp1]
    split_ifs <;> refine ⟨?_, ?_, ?_⟩ <;> simp_all <;> omega

/-- `finishAction` on the shortened array, one cursor position earlier, with a
node of the same variant: the result values agree up to the variant and the
cursor shifts. -/
theorem finishAction_eraseIdx {T : List item} {k p : Nat} (hk : k < p) (hklen : k < T.length)
    (node node' : CommandNode) (hnn : node.nodeType = node'.nodeType) :
    kindE (finishAction T p node).1 = kindE (finishAction (T.eraseIdx k) (p - 1) node').1 ∧
    (finishAction (T.eraseIdx k) (p - 1) node').2 = (finishAction T p node).2 - 1 ∧
    p ≤ (finishAction T p node).2 := by
  obtain ⟨h1, h2, h3⟩ := paccept_eraseIdx hk hklen .itemEnd
  rcases hA : paccept T p .itemEnd with ⟨ok, q⟩
  rcases hB : paccept (T.eraseIdx k) (p - 1) .itemEnd with ⟨ok', q'⟩
  rw [hA] at h1 h2 h3
  rw [hB] at h1 h2
  replace h1 : ok' = ok := h1
  replace h2 : q' = q - 1 := h2
  replace h3 : p ≤ q := h3
  subst h1
  simp only [finishAction, hA, hB]
  cases ok' <;> refine ⟨?_, ?_, ?_⟩ <;> simp [kindE, Except.map, hnn] <;> omega

set_option maxHeartbeats 2000000 in
/-- Dropping an earlier token from the array shifts `parseCommand` by one
cursor position: the produced node has the same variant (its recorded position
moves), errors are identical, and the new cursor is the old one shifted. -/
theorem parseCommandF_eraseIdx {T : List item} {k pos : Nat} (hk : k < pos) :
    kindE (parseCommandF T pos).1 = kindE (parseCommandF (T.eraseIdx k) (pos - 1)).1 ∧
    (parseCommandF (T.eraseIdx k) (pos - 1)).2 = (parseCommandF T pos).2 - 1 ∧
    pos ≤ (parseCommandF T pos).2 := by
  have hpos1 : pos - 1 + 1 = pos := by omega
  have hpeek : (T.eraseIdx k)[pos - 1]? = T[pos]? := by
    rw [getElem?_eraseIdx_ge _ _ _ (by omega), hpos1]
  rcases hg : T[pos]? with _ | it
  · have hg' : (T.eraseIdx k)[pos - 1]? = none := by rw [hpeek, hg]
    rw [parseCommandF, parseCommandF]
    simp only [pnext, hg, hg']
    refine ⟨?_, ?_, ?_⟩ <;> simp [kindE] <;> omega
  · have hg' : (T.eraseIdx k)[pos - 1]? = some it := by rw [hpeek, hg]
    have hposlt : pos < T.length := (List.getElem?_eq_some.mp hg).1
    rw [parseCommandF, parseCommandF]
    simp only [pnext, hg, hg', hpos1]
    cases htyp : it.typ <;> simp only []
    case itemIdentifier =>
      have hstop := @finishAction_eraseIdx T k (pos + 1)
        (by omega) (by omega) (.StopNode (pos + 1)) (.StopNode pos) rfl
      have hkeep := @finishAction_eraseIdx T k (pos + 1)
        (by omega) (by omega) (.KeepNode (pos + 1)) (.KeepNode pos) rfl
      have hdisc := @finishAction_eraseIdx T k (pos + 1)
        (by omega) (by omega) (.DiscardNode (pos + 1)) (.DiscardNode pos) rfl
      simp only [Nat.add_sub_cancel] at hstop hkeep hdisc
      split_ifs <;>
        first
        | exact ⟨hstop.1, hstop.2.1, by omega⟩
        | exact ⟨hkeep.1, hkeep.2.1, by omega⟩
        | exact ⟨hdisc.1, hdisc.2.1, by omega⟩
        | exact ⟨rfl, by simp, by simp⟩
    all_goals refine ⟨?_, ?_, ?_⟩ <;> simp [kindE] <;> omega

/-- The first component of a failed end-marker `accept` does not depend on the
array beyond the token under the cursor, so `finishAction`'s result value is
the same for any array agreeing there (only the error cursor can differ). -/
theorem finishAction_congr_fst {T T' : List item} {p : Nat} (node : CommandNode)
    (h : T'[p]? = T[p]?) :
    (finishAction T' p node).1 = (finishAction T p node).1 := by
  rcases hg : T[p]? with _ | it
  · have hg' : T'[p]? = none := by rw [h, hg]
    simp only [finishAction, paccept, pnext, pbackup, hg, hg']
    split_ifs <;> first | rfl | simp_all
  · have hg' : T'[p]? = some it := by rw [h, hg]
    simp only [finishAction, paccept, pnext, pbackup, hg, hg']
    split_ifs <;> first | rfl | simp_all

/-- `parseCommand` reads only the two tokens at the cursor, so any token array
agreeing there gives the same result value.  (Only the value: after a FAILED
end-marker `accept`, the cursor depends on the array length through `backup`,
but a failed accept always comes with an error result, whose cursor the `Parse`
loop discards.) -/
theorem parseCommandF_congr_tokens {T T' : List item} {pos : Nat}
    (h1 : T'[pos]? = T[pos]?) (h2 : T'[pos + 1]? = T[pos + 1]?) :
    (parseCommandF T' pos).1 = (parseCommandF T pos).1 := by
  rcases hg : T[pos]? with _ | it
  · have hg' : T'[pos]? = none := by rw [h1, hg]
    simp [parseCommandF, pnext, hg, hg']
  · have hg' : T'[pos]? = some it := by rw [h1, hg]
    simp only [parseCommandF, pnext, hg, hg']
    cases htyp : it.typ <;> simp only []
    case itemIdentifier =>
      split_ifs <;>
        first
        | rfl
        | exact finishAction_congr_fst (.StopNode (pos + 1)) h2
        | exact finishAction_congr_fst (.KeepNode (pos + 1)) h2
        | exact finishAction_congr_fst (.DiscardNode (pos + 1)) h2
    all_goals rfl

set_option maxHeartbeats 2000000 in
/-- Behind the removed token, the `Parse` loop of the shortened array runs in
lockstep one position earlier: outcomes agree up to node positions.  The
distance to the end of the array is the same on both sides, so the two runs
also agree on when `peek` consumes the last token. -/
theorem parseLoopF_eraseIdx_after {T : List item} {k : Nat} :
    ∀ (f pos : Nat), k < pos →
      kindsRes (parseLoopF f T pos) = kindsRes (parseLoopF f (T.eraseIdx k) (pos - 1)) := by
  intro f
  induction f with
  | zero => intro pos _; rfl
  | succ f ih =>
    intro pos hk
    have hpos1 : pos - 1 + 1 = pos := by omega
    have hpeek : (T.eraseIdx k)[pos - 1]? = T[pos]? := by
      rw [getElem?_eraseIdx_ge _ _ _ (by omega), hpos1]
    rw [parseLoopF, parseLoopF]
    rcases hg : T[pos]? with _ | it
    · have hg' : (T.eraseIdx k)[pos - 1]? = none := by rw [hpeek, hg]
      rw [ppeek_none hg, ppeek_none hg']
    · have hg' : (T.eraseIdx k)[pos - 1]? = some it := by rw [hpeek, hg]
      have hposlt : pos < T.length := (List.getElem?_eq_some.mp hg).1
      have hlen : (T.eraseIdx k).length = T.length - 1 := length_eraseIdx' T k (by omega)
      rcases Nat.lt_or_ge (pos + 1) T.length with hint | hlast
      · -- the peeked token is not the last one: the cursor is restored on
        -- both sides
        have hint' : pos - 1 + 1 < (T.eraseIdx k).length := by omega
        rw [ppeek_interior hg hint, ppeek_interior hg' hint']
        simp only []
        cases htyp : it.typ
        case itemComment =>
          rw [padvance_some hg, padvance_some hg']
          rw [hpos1]
          have h1 := ih (pos + 1) (by omega)
          simpa using h1
        case itemIdentifier =>
          obtain ⟨hkE, hp2, hple⟩ := @parseCommandF_eraseIdx T k pos hk
          rcases hL : parseCommandF T pos with ⟨res, pos2⟩
          rcases hR : parseCommandF (T.eraseIdx k) (pos - 1) with ⟨res', pos2'⟩
          rw [hL] at hkE hp2 hple
          rw [hR] at hkE hp2
          replace hkE : kindE res = kindE res' := hkE
          replace hp2 : pos2' = pos2 - 1 := hp2
          replace hple : pos ≤ pos2 := hple
          cases res with
          | error e =>
            cases res' with
            | error e' =>
              have he : e = e' := by simpa [kindE, Except.map] using hkE
              subst he
              rfl
            | ok node' => simp [kindE, Except.map] at hkE
          | ok node =>
            cases res' with
            | error e' => simp [kindE, Except.map] at hkE
            | ok node' =>
              have hnodes : Option.map CommandNode.nodeType node =
                  Option.map CommandNode.nodeType node' := by
                simpa [kindE, Except.map] using hkE
              have hrec := ih pos2 (by omega)
              rw [← hp2] at hrec
              show kindsRes ((parseLoopF f T pos2).map (Except.map fun rest => node :: rest)) =
                kindsRes ((parseLoopF f (T.eraseIdx k) pos2').map
                  (Except.map fun rest => node' :: rest))
              rw [kindsRes_cons, kindsRes_cons, hrec, hnodes]
        all_goals rfl
      · -- the peeked token is the last one on both sides: peek consumes it and
        -- the identifier case hands `parseCommand` a cursor at end-of-input
        have hlasteq : pos + 1 = T.length := by omega
        have hlast' : pos - 1 + 1 = (T.eraseIdx k).length := by omega
        have hnone : T[pos + 1]? = none := getElem?_none_of_length_le (by omega)
        have hnone' : (T.eraseIdx k)[pos]? = none := getElem?_none_of_length_le (by omega)
        rw [ppeek_last hg hlasteq, ppeek_last hg' hlast']
        rw [hpos1]
        simp only []
        cases htyp : it.typ
        case itemComment =>
          rw [padvance_none hnone, padvance_none hnone']
          have h1 := ih (pos + 1) (by omega)
          simpa using h1
        case itemIdentifier =>
          rw [parseCommandF_at_none hnone, parseCommandF_at_none hnone']
          simp only []
          have h1 := ih (pos + 1) (by omega)
          simp only [Nat.add_sub_cancel] at h1
          rw [kindsRes_cons, kindsRes_cons, h1]
        all_goals rfl

theorem kindsRes_ok_inv {o : Option (Except (List Char) (List (Option CommandNode)))}
    {ks : List (Option Nat)} (h : kindsRes o = some (.ok ks)) :
    ∃ cs, o = some (.ok cs) ∧ nodeKinds cs = ks := by
  rcases o with _ | r
  · simp [kindsRes] at h
  · cases r with
    | error e => simp [kindsRes, Except.map] at h
    | ok cs =>
      refine ⟨cs, rfl, ?_⟩
      simpa [kindsRes, nodeKinds, Except.map] using h

set_option maxHeartbeats 4000000 in
/-- Ahead of (or at) the removed comment token, a successful `Parse` run of
the original array is matched by a successful run of the shortened array with
the same node variants in order. -/
theorem parseLoopF_eraseIdx_before {T : List item} {k : Nat} {ck : item}
    (hck : T[k]? = some ck) (hct : ck.typ = .itemComment) :
    ∀ (f pos : Nat) (cs : List (Option CommandNode)), pos ≤ k →
      parseLoopF f T pos = some (.ok cs) →
      ∃ cs', parseLoopF f (T.eraseIdx k) pos = some (.ok cs') ∧
        nodeKinds cs = nodeKinds cs' := by
  have hkT : k < T.length := (List.getElem?_eq_some.mp hck).1
  have hlen : (T.eraseIdx k).length = T.length - 1 := length_eraseIdx' T k hkT
  intro f
  induction f with
  | zero =>
    intro pos cs _ h
    simp [parseLoopF] at h
  | succ f ih =>
    intro pos cs hposk h
    rcases Nat.lt_or_ge pos k with hlt | hge
    · -- strictly before the comment: identical tokens at the cursor, and the
      -- original side never peeks its last token here (the comment is behind)
      rw [parseLoopF] at h ⊢
      rcases hg : T[pos]? with _ | it
      · exact absurd (length_le_of_getElem?_none hg) (by omega)
      · have hg' : (T.eraseIdx k)[pos]? = some it := by
          rw [getElem?_eraseIdx_lt _ _ _ hlt, hg]
        have hTint : pos + 1 < T.length := by omega
        rw [ppeek_interior hg hTint] at h
        simp only [] at h
        rcases Nat.lt_or_ge (pos + 1) (T.eraseIdx k).length with hint' | hlast'
        · -- the shortened side also restores the cursor
          rw [ppeek_interior hg' hint']
          simp only []
          cases htyp : it.typ
          case itemEOF =>
            try rw [htyp] at h
            have hcs : cs = [] := by simpa using h
            subst hcs
            exact ⟨[], rfl, rfl⟩
          case itemComment =>
            try rw [htyp] at h
            replace h : parseLoopF f T (padvance T pos) = some (.ok cs) := h
            rw [padvance_some hg] at h
            rw [padvance_some hg']
            exact ih (pos + 1) cs (by omega) h
          case itemIdentifier =>
            try rw [htyp] at h
            rcases hL : parseCommandF T pos with ⟨res, pos2⟩
            rw [hL] at h
            cases res with
            | error e => exact absurd h (by simp)
            | ok node =>
              have hpos2 : pos2 = pos + 2 := parseCommandF_ok_pos hg htyp hL
              -- the end-marker read happens at pos + 1; success rules out
              -- pos + 1 = k (the read would hit the comment and fail)
              have hne : pos + 1 ≠ k := by
                intro hEq
                rw [parseCommandF] at hL
                simp only [pnext, hg, htyp, finishAction, paccept, pbackup, hEq, hck] at hL
                split_ifs at hL <;> simp_all [hct]
              have hg1eq : (T.eraseIdx k)[pos]? = T[pos]? :=
                getElem?_eraseIdx_lt _ _ _ hlt
              have hg2eq : (T.eraseIdx k)[pos + 1]? = T[pos + 1]? :=
                getElem?_eraseIdx_lt _ _ _ (by omega)
              have hcongr : (parseCommandF (T.eraseIdx k) pos).1 = (parseCommandF T pos).1 :=
                parseCommandF_congr_tokens hg1eq hg2eq
              rcases hL' : parseCommandF (T.eraseIdx k) pos with ⟨res', pos2'⟩
              rw [hL, hL'] at hcongr
              replace hcongr : res' = Except.ok node := hcongr
              have hL2 : parseCommandF (T.eraseIdx k) pos = (.ok node, pos2') := by
                rw [hL', hcongr]
              have hpos2' : pos2' = pos + 2 := parseCommandF_ok_pos hg' htyp hL2
              rw [hcongr]
              simp only [] at h ⊢
              rcases hrun : parseLoopF f T pos2 with _ | r
              · rw [hrun] at h
                simp at h
              · rw [hrun] at h
                cases r with
                | error e =>
                  simp [Except.map] at h
                | ok cs0 =>
                  have hcs : node :: cs0 = cs := by
                    simpa [Except.map] using h
                  subst hcs
                  obtain ⟨cs0', hrun', hkinds⟩ := ih pos2 cs0 (by omega) hrun
                  rw [hpos2', ← hpos2, hrun']
                  refine ⟨node :: cs0', by simp [Except.map], ?_⟩
                  simpa [nodeKinds] using hkinds
          all_goals (try rw [htyp] at h)
          all_goals exact absurd h (by simp)
        · -- the token at the cursor is the shortened array's LAST token, so
          -- the removed comment is the original array's last token, right
          -- behind the cursor
          have hkEq : k = pos + 1 := by omega
          rw [ppeek_last hg' (by omega)]
          simp only []
          cases htyp : it.typ
          case itemEOF =>
            try rw [htyp] at h
            have hcs : cs = [] := by simpa using h
            subst hcs
            exact ⟨[], rfl, rfl⟩
          case itemComment =>
            try rw [htyp] at h
            replace h : parseLoopF f T (padvance T pos) = some (.ok cs) := h
            rw [padvance_some hg] at h
            have hnone' : (T.eraseIdx k)[pos + 1]? = none :=
              getElem?_none_of_length_le (by omega)
            rw [padvance_none hnone']
            exact ih (pos + 1) cs (by omega) h
          case itemIdentifier =>
            -- impossible under the success hypothesis: the end-marker read at
            -- pos + 1 = k hits the comment and `parseCommand` fails
            try rw [htyp] at h
            exfalso
            rcases hL : parseCommandF T pos with ⟨res, pos2⟩
            rw [hL] at h
            cases res with
            | error e => simp at h
            | ok node =>
              rw [parseCommandF] at hL
              have hck2 : T[pos + 1]? = some ck := by
                rw [← hkEq]
                exact hck
              simp only [pnext, hg, htyp, finishAction, paccept, pbackup, hck2] at hL
              split_ifs at hL <;> simp_all [hct]
          all_goals (try rw [htyp] at h)
          all_goals exact absurd h (by simp)
    · -- at the comment itself: the original run absorbs it and continues at
      -- pos + 1 (whether or not the comment was the last token); relate the
      -- rest through the lockstep lemma
      have hEq : pos = k := by omega
      subst hEq
      have hstep : parseLoopF f T (pos + 1) = some (.ok cs) := by
        rw [parseLoopF] at h
        rcases Nat.lt_or_ge (pos + 1) T.length with hint | hlast
        · rw [ppeek_interior hck hint] at h
          simp only [] at h
          rw [hct] at h
          replace h : parseLoopF f T (padvance T pos) = some (.ok cs) := h
          rw [padvance_some hck] at h
          exact h
        · rw [ppeek_last hck (by omega)] at h
          simp only [] at h
          rw [hct] at h
          replace h : parseLoopF f T (padvance T (pos + 1)) = some (.ok cs) := h
          rw [padvance_none (getElem?_none_of_length_le (by omega))] at h
          exact h
      have hafter := @parseLoopF_eraseIdx_after T pos f (pos + 1) (by omega)
      simp only [Nat.add_sub_cancel] at hafter
      rw [hstep] at hafter
      obtain ⟨cs', hrun', hkinds⟩ := kindsRes_ok_inv hafter.symm
      exact ⟨cs', parseLoopF_succ hrun', hkinds.symm⟩

/-- On the input `/**`, the bracket-comment state is a fixed point of `step`:
the final `*` is consumed, the probe for `/` hits EOF without moving, and
`backup` (with `atEOF` never set) un-consumes the `*` again. -/
theorem runLex_starCycle (m : Nat) :
    runLex m .bracketCommentS
      ⟨"/**".data, 0, 2, false, 0, ⟨.itemEOF, 0, "EOF".data⟩⟩ = none := by
  induction m with
  | zero => rfl
  | succ m ih =>
    have hstep : step .bracketCommentS
        ⟨"/**".data, 0, 2, false, 0, ⟨.itemEOF, 0, "EOF".data⟩⟩ =
        .cont .bracketCommentS ⟨"/**".data, 0, 2, false, 0, ⟨.itemEOF, 0, "EOF".data⟩⟩ := rfl
    rw [runLex, hstep]
    exact ih

/-!
## The claims

One theorem per claim, over the definitions above.  `parseScript` is the
whole pipeline (`lex`, `newParser`, `Parse`); the fuel arguments are always
large enough for the concrete inputs (adding fuel cannot change a `some`
result, by `runLex_mono` / `parseLoopF_mono`).
-/

/-- C1: refuted as stated.  Parsing `if t1 {A;} elsif t2 {B;} else {C;}` does
not succeed: `Parser.parseCommand` dispatches `if` to `Parser.parseIf`, which
is `return nil, fmt.Errorf("not implemented")`, so the pipeline returns the
error `not implemented` and no `IfNode` is ever built. -/
theorem c1_if_elsif_else_not_implemented :
    parseScript 99 "if t1 {A;} elsif t2 {B;} else {C;}".data =
      some (.error "not implemented".data) := by decide

/-- C2: refuted as stated.  The scanner happily produces the three tokens
`redirect` / string / `;`, but `Parser.parseCommand` dispatches the
`REDIRECT` case to `Parser.parseRequire` (the spec's open question: it does
share `require`'s handler), which returns `not implemented`; no
`RedirectNode` carrying the address is ever built. -/
theorem c2_redirect_shares_require_stub :
    newParserF 120 120 (lexer.lex "redirect \"foo@example.com\";".data) =
      some (.ok [⟨.itemIdentifier, 0, "redirect".data⟩,
                 ⟨.itemString, 9, "\"foo@example.com\"".data⟩,
                 ⟨.itemEnd, 26, ";".data⟩]) ∧
    parseScript 120 "redirect \"foo@example.com\";".data =
      some (.error "not implemented".data) :=
  ⟨by decide, by decide⟩

/-- C3: refuted as stated.  `Parser.parseCommand` dispatches `require` to
`Parser.parseRequire`, which is `return nil, fmt.Errorf("not implemented")`:
no `RequireNode` with a capability list is ever produced. -/
theorem c3_require_not_implemented :
    parseScript 99 "require [\"fileinto\"];".data =
      some (.error "not implemented".data) := by decide

/-- C4 (corrected): for every well-formed quoted string `"s"` the scanner
emits a single string token, but its value is the raw source slice
`l.input[l.start:l.pos]` — the surrounding double quotes are included and the
escape sequences are left unresolved, exactly as `lexer.thisItem` slices the
input. -/
theorem c4_quoted_string_value_is_raw_slice (s rest : List Char) (hs : QBody s) :
    nextItemF (s.length + 3) (lexer.lex ('"' :: (s ++ '"' :: rest))) =
      some (⟨'"' :: (s ++ '"' :: rest), s.length + 2, s.length + 2, false, 1,
             ⟨.itemString, 0, '"' :: (s ++ ['"'])⟩⟩,
            ⟨.itemString, 0, '"' :: (s ++ ['"'])⟩) :=
  nextItem_quoted_emit s rest hs

theorem c4_escape_resolution_counterexample :
    (nextItemF 30 (lexer.lex "\"a\\\"b\\\\c\"".data)).map (fun p => p.2) =
      some ⟨.itemString, 0, "\"a\\\"b\\\\c\"".data⟩ ∧
    "\"a\\\"b\\\\c\"".data ≠ "a\"b\\c".data :=
  ⟨by decide, by decide⟩

theorem c4_quoted_string_value_is_raw_slice_witness :
    nextItemF ("a\\\"b\\\\c".data.length + 3)
      (lexer.lex ('"' :: ("a\\\"b\\\\c".data ++ '"' :: []))) =
      some (⟨'"' :: ("a\\\"b\\\\c".data ++ '"' :: []),
             "a\\\"b\\\\c".data.length + 2, "a\\\"b\\\\c".data.length + 2, false, 1,
             ⟨.itemString, 0, '"' :: ("a\\\"b\\\\c".data ++ ['"'])⟩⟩,
            ⟨.itemString, 0, '"' :: ("a\\\"b\\\\c".data ++ ['"'])⟩) :=
  c4_quoted_string_value_is_raw_slice "a\\\"b\\\\c".data []
    (QBody.chr 'a' ['\\', '\"', 'b', '\\', '\\', 'c'] (by decide)
      (QBody.escQ ['b', '\\', '\\', 'c']
        (QBody.chr 'b' ['\\', '\\', 'c'] (by decide)
          (QBody.escB ['c']
            (QBody.chr 'c' [] (by decide) QBody.nil)))))

/-- C5 (corrected): removing a comment token from a successfully parsed token
stream leaves a stream that still parses successfully to a tree with the same
node variants in the same order, but the trees are not structurally identical:
node positions are the parser's token-stream cursor (`tree.newStop(p.Pos)`),
so every node after the removed comment records a shifted position.  The
underlying loop model reproduces `Parser.peek`'s quirk of consuming the
array's last token (`backup` is a no-op at end-of-input), so the hypothesis
also admits the streams Go accepts only through that quirk — an identifier as
the final token makes `parseCommand` run at end-of-input and the parse
succeed with a trailing nil node, which comment removal preserves like any
other variant. -/
theorem c5_comment_removal_preserves_node_kinds (T : List item) (k : Nat) (ck : item)
    (hck : T[k]? = some ck) (hct : ck.typ = itemType.itemComment)
    (cs : List (Option CommandNode)) (h : ParseTokens T = some (.ok cs)) :
    ∃ cs', ParseTokens (T.eraseIdx k) = some (.ok cs') ∧
      nodeKinds cs = nodeKinds cs' := by
  replace h : parseLoopF (T.length + 1) T 0 = some (.ok cs) := h
  obtain ⟨cs', hrun, hkinds⟩ :=
    parseLoopF_eraseIdx_before hck hct (T.length + 1) 0 cs (Nat.zero_le k) h
  have hk : k < T.length := (List.getElem?_eq_some.mp hck).1
  have hlen : (T.eraseIdx k).length = T.length - 1 := length_eraseIdx' T k hk
  have hsome := @parseLoopF_isSome (T.eraseIdx k) ((T.eraseIdx k).length + 1) 0 (by omega)
  rcases hPT : parseLoopF ((T.eraseIdx k).length + 1) (T.eraseIdx k) 0 with _ | r
  · rw [hPT] at hsome; simp at hsome
  · have hmono := parseLoopF_mono hPT (by omega : (T.eraseIdx k).length + 1 ≤ T.length + 1)
    rw [hrun] at hmono
    have hr : r = .ok cs' := by
      injection hmono with h2
      exact h2.symm
    refine ⟨cs', ?_, hkinds⟩
    show parseLoopF ((T.eraseIdx k).length + 1) (T.eraseIdx k) 0 = some (.ok cs')
    rw [hPT, hr]

theorem c5_comment_removal_counterexample :
    parseScript 99 "/*c*/stop;".data = some (.ok [some (.StopNode 2)]) ∧
    parseScript 99 "stop;".data = some (.ok [some (.StopNode 1)]) ∧
    ([some (CommandNode.StopNode 2)] : List (Option CommandNode)) ≠
      [some (.StopNode 1)] :=
  ⟨by decide, by decide, by decide⟩

theorem c5_comment_removal_preserves_node_kinds_witness :
    ∃ cs', ParseTokens ([⟨.itemComment, 0, "/*c*/".data⟩, ⟨.itemIdentifier, 5, "stop".data⟩,
        ⟨.itemEnd, 9, ";".data⟩].eraseIdx 0) = some (.ok cs') ∧
      nodeKinds [some (CommandNode.StopNode 2)] = nodeKinds cs' :=
  c5_comment_removal_preserves_node_kinds
    [⟨.itemComment, 0, "/*c*/".data⟩, ⟨.itemIdentifier, 5, "stop".data⟩, ⟨.itemEnd, 9, ";".data⟩]
    0 ⟨.itemComment, 0, "/*c*/".data⟩ (by decide) rfl
    [some (.StopNode 2)] (by decide)

/-- C6: refuted — the scanner does not terminate on every finite input.  On
the three-character input `/**`, `lexBracketComment` consumes the final `*`,
probes for `/`, hits end-of-input, and calls `backup`; since the `atEOF`
field is never assigned anywhere, `backup` rewinds over the `*` it just
consumed, and the state repeats forever.  In the embedding: no amount of fuel
makes `nextItem` return. -/
theorem c6_scanner_diverges_on_slash_star_star :
    ∀ n : Nat, nextItemF n (lexer.lex "/**".data) = none := by
  intro n
  match n with
  | 0 => rfl
  | 1 => rfl
  | 2 => rfl
  | m + 3 =>
    have h1 : step .startS ⟨"/**".data, 0, 0, false, 0, ⟨.itemEOF, 0, "EOF".data⟩⟩ =
        .cont .whitespaceS ⟨"/**".data, 0, 0, false, 1, ⟨.itemEOF, 0, "EOF".data⟩⟩ := rfl
    have h2 : step .whitespaceS ⟨"/**".data, 0, 0, false, 1, ⟨.itemEOF, 0, "EOF".data⟩⟩ =
        .cont .bracketCommentS ⟨"/**".data, 0, 2, false, 1, ⟨.itemEOF, 0, "EOF".data⟩⟩ := rfl
    have h3 : step .bracketCommentS ⟨"/**".data, 0, 2, false, 1, ⟨.itemEOF, 0, "EOF".data⟩⟩ =
        .cont .bracketCommentS ⟨"/**".data, 0, 2, false, 0, ⟨.itemEOF, 0, "EOF".data⟩⟩ := rfl
    show runLex (m + 1 + 1 + 1) .startS
      ⟨"/**".data, 0, 0, false, 0, ⟨.itemEOF, 0, "EOF".data⟩⟩ = none
    rw [runLex, h1]
    show runLex (m + 1 + 1) .whitespaceS
      ⟨"/**".data, 0, 0, false, 1, ⟨.itemEOF, 0, "EOF".data⟩⟩ = none
    rw [runLex, h2]
    show runLex (m + 1) .bracketCommentS
      ⟨"/**".data, 0, 2, false, 1, ⟨.itemEOF, 0, "EOF".data⟩⟩ = none
    rw [runLex, h3]
    exact runLex_starCycle m

/-- C7 (corrected): reaching end-of-input mid-construct is not uniformly
reported as a lexical error; what happens depends on where the truncation
falls.  A quoted string truncated at a body boundary scans to the preset
end-of-input item — the partial token is silently dropped (stated universally
over `QBody` bodies), and likewise the truncated bracket comment `/*ab`; but
truncation right after a backslash errors `quoted-other not supported`,
truncation after a bare CR errors `dangling carriage return` (quoted string)
or `unexpected carriage return` (bracket comment), and a bracket comment
truncated right after a `*` makes the scanner diverge, returning nothing at
all. -/
theorem c7_eof_mid_construct_mixed_outcomes (s : List Char) (hs : QBody s) :
    nextItemF (s.length + 3) (lexer.lex ('"' :: s)) =
      some (⟨'"' :: s, 0, s.length + 1, false, 0, ⟨.itemEOF, 0, "EOF".data⟩⟩,
            ⟨.itemEOF, 0, "EOF".data⟩) ∧
    (nextItemF 8 (lexer.lex "/*ab".data)).map (fun p => p.2) =
      some ⟨.itemEOF, 0, "EOF".data⟩ ∧
    (nextItemF 8 (lexer.lex "\"a\\".data)).map (fun p => p.2) =
      some ⟨.itemError, 0, "quoted-other not supported".data⟩ ∧
    (nextItemF 8 (lexer.lex "\"a\r".data)).map (fun p => p.2) =
      some ⟨.itemError, 0, "dangling carriage return".data⟩ ∧
    (nextItemF 8 (lexer.lex "/*a\r".data)).map (fun p => p.2) =
      some ⟨.itemError, 0, "unexpected carriage return".data⟩ ∧
    nextItemF 20 (lexer.lex "/**".data) = none :=
  ⟨nextItem_quoted_eof s hs, by decide, by decide, by decide, by decide, by decide⟩

theorem c7_unterminated_constructs_counterexample :
    (nextItemF 30 (lexer.lex "\"abc".data)).map (fun p => p.2.typ) =
      some itemType.itemEOF ∧
    (nextItemF 30 (lexer.lex "/*ab".data)).map (fun p => p.2.typ) =
      some itemType.itemEOF ∧
    itemType.itemEOF ≠ itemType.itemError :=
  ⟨by decide, by decide, by decide⟩

theorem c7_eof_mid_construct_mixed_outcomes_witness :
    nextItemF ("abc".data.length + 3) (lexer.lex ('"' :: "abc".data)) =
      some (⟨'"' :: "abc".data, 0, "abc".data.length + 1, false, 0,
             ⟨.itemEOF, 0, "EOF".data⟩⟩, ⟨.itemEOF, 0, "EOF".data⟩) ∧
    (nextItemF 8 (lexer.lex "/*ab".data)).map (fun p => p.2) =
      some ⟨.itemEOF, 0, "EOF".data⟩ ∧
    (nextItemF 8 (lexer.lex "\"a\\".data)).map (fun p => p.2) =
      some ⟨.itemError, 0, "quoted-other not supported".data⟩ ∧
    (nextItemF 8 (lexer.lex "\"a\r".data)).map (fun p => p.2) =
      some ⟨.itemError, 0, "dangling carriage return".data⟩ ∧
    (nextItemF 8 (lexer.lex "/*a\r".data)).map (fun p => p.2) =
      some ⟨.itemError, 0, "unexpected carriage return".data⟩ ∧
    nextItemF 20 (lexer.lex "/**".data) = none :=
  c7_eof_mid_construct_mixed_outcomes "abc".data
    (QBody.chr 'a' ['b', 'c'] (by decide)
      (QBody.chr 'b' ['c'] (by decide)
        (QBody.chr 'c' [] (by decide) QBody.nil)))

/-- C8 (corrected): comment token values are not stripped of their
delimiters.  A hash comment's value keeps the leading `#` (the CRLF
terminator is excluded but also left unconsumed, the position stops at the
CR), and a bracket comment's value keeps both `/*` and `*/` — `thisItem`
slices `l.input[l.start:l.pos]` with no trimming. -/
theorem c8_comment_values_keep_delimiters (hb bb hrest brest : List Char)
    (hh : ∀ c ∈ hb, isOctetFiltered c ['\r', '\n'] = true) (hbb : BracketBody bb) :
    nextItemF (hb.length + 3) (lexer.lex ('#' :: (hb ++ '\r' :: '\n' :: hrest))) =
      some (⟨'#' :: (hb ++ '\r' :: '\n' :: hrest), hb.length + 1, hb.length + 1, false, 1,
             ⟨.itemComment, 0, '#' :: hb⟩⟩, ⟨.itemComment, 0, '#' :: hb⟩) ∧
    nextItemF (bb.length + 3) (lexer.lex ('/' :: '*' :: (bb ++ '*' :: '/' :: brest))) =
      some (⟨'/' :: '*' :: (bb ++ '*' :: '/' :: brest), bb.length + 4, bb.length + 4, false, 1,
             ⟨.itemComment, 0, '/' :: '*' :: (bb ++ ['*', '/'])⟩⟩,
            ⟨.itemComment, 0, '/' :: '*' :: (bb ++ ['*', '/'])⟩) :=
  ⟨nextItem_hash hb hrest hh, nextItem_bracket bb brest hbb⟩

theorem c8_comment_delimiters_counterexample :
    (nextItemF 30 (lexer.lex "#ab\r\nkeep;".data)).map (fun p => p.2) =
      some ⟨.itemComment, 0, "#ab".data⟩ ∧
    "#ab".data ≠ "ab".data ∧
    (nextItemF 30 (lexer.lex "/*ab*/".data)).map (fun p => p.2) =
      some ⟨.itemComment, 0, "/*ab*/".data⟩ ∧
    "/*ab*/".data ≠ "ab".data :=
  ⟨by decide, by decide, by decide, by decide⟩

theorem c8_comment_values_keep_delimiters_witness :
    nextItemF ("ab".data.length + 3)
      (lexer.lex ('#' :: ("ab".data ++ '\r' :: '\n' :: "keep;".data))) =
      some (⟨'#' :: ("ab".data ++ '\r' :: '\n' :: "keep;".data),
             "ab".data.length + 1, "ab".data.length + 1, false, 1,
             ⟨.itemComment, 0, '#' :: "ab".data⟩⟩, ⟨.itemComment, 0, '#' :: "ab".data⟩) ∧
    nextItemF ("ab".data.length + 3)
      (lexer.lex ('/' :: '*' :: ("ab".data ++ '*' :: '/' :: []))) =
      some (⟨'/' :: '*' :: ("ab".data ++ '*' :: '/' :: []),
             "ab".data.length + 4, "ab".data.length + 4, false, 1,
             ⟨.itemComment, 0, '/' :: '*' :: ("ab".data ++ ['*', '/'])⟩⟩,
            ⟨.itemComment, 0, '/' :: '*' :: ("ab".data ++ ['*', '/'])⟩) :=
  c8_comment_values_keep_delimiters "ab".data "ab".data "keep;".data [] (by decide)
    (BracketBody.chr 'a' ['b'] (by decide)
      (BracketBody.chr 'b' [] (by decide) BracketBody.nil))

/-- C9: refuted — the multi-line branch is unreachable.  `lexStart` guards it
with `r == 't' && l.isExactPrefix(textMarker)`, but `textMarker` is
`"input:"`, which begins with `i`, not `t`: the two conjuncts are never both
true, so input beginning with the marker takes the identifier path instead,
which rejects the `:` as an unexpected rune.  Even the empty-body script
`input:\r\n.\r\n` that the claim says yields an empty string token produces
an error item (and `newParser` turns it into a syntax error). -/
theorem c9_multiline_marker_unreachable :
    textMarker = "input:".data ∧
    nextItemF 30 (lexer.lex "input:\r\n.\r\n".data) =
      some (⟨[], 0, 0, false, 1, ⟨.itemError, 0, "unexpected rune".data⟩⟩,
            ⟨.itemError, 0, "unexpected rune".data⟩) ∧
    newParserF 30 30 (lexer.lex "input:\r\n.\r\n".data) =
      some (.error "syntax error: `unexpected rune`".data) :=
  ⟨by decide, by decide, by decide⟩

/-- C10: confirmed.  `errorf` clears the stored input and resets both
positions while recording the error item; on any lexer whose input is empty
and whose position is 0 — the state `errorf` leaves behind — every further
`nextItem` call returns the end-of-input item at position 0 (and leaves the
input empty and the position 0 again), so no token or error can ever follow
an error. -/
theorem c10_error_is_terminal (l lx : lexer) (msg : List Char) (n : Nat)
    (hinp : lx.input = []) (hpos : lx.pos = 0) (hn : 1 ≤ n) :
    errorfStep l msg =
      .halt ⟨[], 0, 0, l.atEOF, l.width, ⟨.itemError, l.start, msg⟩⟩ ∧
    nextItemF n lx =
      some ({ lx with width := 0, pending := ⟨.itemEOF, 0, "EOF".data⟩ },
            ⟨.itemEOF, 0, "EOF".data⟩) ∧
    ({ lx with width := 0, pending := (⟨.itemEOF, 0, "EOF".data⟩ : item) } : lexer).input = [] ∧
    ({ lx with width := 0, pending := (⟨.itemEOF, 0, "EOF".data⟩ : item) } : lexer).pos = 0 := by
  refine ⟨rfl, ?_, hinp, hpos⟩
  obtain ⟨k, rfl⟩ : ∃ k, n = k + 1 := ⟨n - 1, by omega⟩
  show runLex (k + 1) .startS { lx with pending := ⟨.itemEOF, lx.pos, "EOF".data⟩ } = _
  rw [runLex]
  have hget : ∀ m : Nat, lx.input[m]? = (none : Option Char) := by
    intro m
    rw [hinp]
    simp
  simp [step, lexer.peekc, lexer.next, lexer.backup, hget, hpos]

theorem c10_error_is_terminal_witness :
    errorfStep (lexer.lex "x".data) "boom".data =
      LexStep.halt ⟨[], 0, 0, false, 0, ⟨.itemError, 0, "boom".data⟩⟩ ∧
    nextItemF 5 (⟨[], 0, 0, false, 1, ⟨.itemError, 0, "boom".data⟩⟩ : lexer) =
      some ((⟨[], 0, 0, false, 0, ⟨.itemEOF, 0, "EOF".data⟩⟩ : lexer),
            (⟨.itemEOF, 0, "EOF".data⟩ : item)) ∧
    (⟨[], 0, 0, false, 0, ⟨.itemEOF, 0, "EOF".data⟩⟩ : lexer).input = [] ∧
    (⟨[], 0, 0, false, 0, ⟨.itemEOF, 0, "EOF".data⟩⟩ : lexer).pos = 0 :=
  c10_error_is_terminal (lexer.lex "x".data)
    ⟨[], 0, 0, false, 1, ⟨.itemError, 0, "boom".data⟩⟩ "boom".data 5 rfl rfl (by decide)
